import Mathlib

/-!
# Framed circular buffer of `src/ringbuf.c` and daemon of `src/daemon.c`

A shallow embedding of `ringbuffer_init`, `ringbuffer_write` and
`ringbuffer_read`, of `write_packets`, `process_packets` and `simpledaemon`,
and the properties of the framed circular buffer and of the daemon.

Conventions of the embedding

* A pointer is the natural number of its address; `NULL` is `0`.
* A region of memory is a function from addresses to bytes.  The arena
  storage is addressed absolutely (`begin`, `end`, `read`, `write` are
  addresses); the caller's `message` and `buffer` objects and the local
  `message_len` variable are addressed by offset from their own start.
* `size_t` is 8 bytes wide and little endian; `size_t` arithmetic is reduced
  modulo `2 ^ 64`, a pointer difference is an integer.
* The mutex and the condition variable are not part of the embedding: a
  call is the sequential body of its critical section.
* A thread of the daemon is embedded as its sequential body; one pass of the
  loop of `process_packets` yields the list of the calls it makes, in order.
-/

namespace RingBuf

/-! ## Machine model -/

/-- A `uint8_t`. -/
abbrev Byte := Fin 256

/-- A region of memory: the byte stored at each address. -/
abbrev Mem := Nat → Byte

/-- The number of values of a `size_t`, `2 ^ 64`. -/
def SIZE_T_MOD : Nat := 18446744073709551616

/-- The value of `sizeof(size_t)`. -/
def sizeof_size_t : Nat := 8

/-- Conversion of an integer result to `size_t`. -/
def to_size_t (z : Int) : Nat := (z % (SIZE_T_MOD : Int)).toNat

/-- Addition of two `size_t` values. -/
def size_t_add (a b : Nat) : Nat := (a + b) % SIZE_T_MOD

/-- Subtraction of two `size_t` values. -/
def size_t_sub (a b : Nat) : Nat := to_size_t ((a : Int) - (b : Int))

/-- Difference `p - q` of two pointers into the same object. -/
def ptrdiff (p q : Nat) : Int := (p : Int) - (q : Int)

/-- The call `memcpy(d, s, n)` where `d` points into `dest` and `s` into `src`:
the `n` bytes of `src` from `s` on are stored in `dest` from `d` on. -/
def memcpy (dest : Mem) (d : Nat) (src : Mem) (s : Nat) (n : Nat) : Mem :=
  fun a => if d ≤ a ∧ a < d + n then src (s + (a - d)) else dest a

/-- The object representation of a `size_t` variable holding `v`: byte `i`
is the `i`-th base-256 digit of `v`, least significant first. -/
def size_t_bytes (v : Nat) : Mem := fun i => Fin.ofNat (v / 256 ^ i)

/-- The value of a `size_t` variable whose object representation is `obj`. -/
def load_size_t (obj : Mem) : Nat :=
  (List.range sizeof_size_t).foldr (fun i acc => (obj i).val * 256 ^ i + acc) 0

/-- An object whose bytes have not been written yet (they are never read
before they are written). -/
def uninit : Mem := fun _ => 0

/-! ## The context -/

/-- Modelled from the spec: the return codes declared in `include/ringbuf.h`
(the header is not among the sources); the spec names the outcomes
`Success`, `Full`, `Empty` and `OutputTooSmall`, taken to be distinct. -/
inductive Status where
  | SUCCESS
  | RINGBUFFER_FULL
  | RINGBUFFER_EMPTY
  | OUTPUT_BUFFER_TOO_SMALL
  deriving DecidableEq, Repr

/-- Modelled from the spec: `rbctx_t` of `include/ringbuf.h`, with the four
pointers `begin`, `end`, `read` and `write` that `src/ringbuf.c` uses, together
with `mem`, the memory those pointers point into. -/
structure rbctx_t where
  mem : Mem
  begin : Nat
  end_ : Nat
  read : Nat
  write : Nat

/-- What `ringbuffer_write` leaves behind: its return value and the context. -/
structure write_result where
  status : Status
  context : rbctx_t

/-- What `ringbuffer_read` leaves behind: its return value, the context, the
caller's `buffer` and `*buffer_len`. -/
structure read_result where
  status : Status
  context : rbctx_t
  buffer : Mem
  buffer_len : Nat

/-- The function `ringbuffer_init` (src/ringbuf.c:9). A `NULL` storage leaves the
context as it is; the context itself is never `NULL` here. -/
def ringbuffer_init (context : rbctx_t) (buffer_location : Nat) (buffer_size : Nat) :
    rbctx_t :=
  if buffer_location = 0 then context
  else
    { context with
      begin := buffer_location
      end_ := buffer_location + buffer_size
      read := buffer_location
      write := buffer_location }

/-- The local `space_free` of `ringbuffer_write` (src/ringbuf.c:41-46). -/
def write_space_free (context : rbctx_t) : Nat :=
  if context.read > context.write then
    to_size_t (ptrdiff context.read context.write - 1)
  else
    to_size_t (ptrdiff context.end_ context.write + (context.read : Int)
      - (context.begin : Int) - 1)

/-- The function `ringbuffer_write` (src/ringbuf.c:27). -/
def ringbuffer_write (context : rbctx_t) (message : Mem) (message_len : Nat) :
    write_result :=
  let total_len := size_t_add message_len sizeof_size_t
  let space_free := write_space_free context
  if total_len > space_free then
    ⟨Status.RINGBUFFER_FULL, context⟩
  else
    let space_to_end := to_size_t (ptrdiff context.end_ context.write)
    if space_to_end ≥ total_len then
      let mem1 := memcpy context.mem context.write (size_t_bytes message_len) 0 sizeof_size_t
      let mem2 := memcpy mem1 (context.write + sizeof_size_t) message 0 message_len
      let write1 := context.write + total_len
      let write2 := if write1 = context.end_ then context.begin else write1
      ⟨Status.SUCCESS, { context with mem := mem2, write := write2 }⟩
    else
      let mem3 :=
        if space_to_end ≥ sizeof_size_t then
          let mem1 := memcpy context.mem context.write (size_t_bytes message_len) 0
            sizeof_size_t
          let mem2 := memcpy mem1 (context.write + sizeof_size_t) message 0
            (size_t_sub space_to_end sizeof_size_t)
          memcpy mem2 context.begin message (size_t_sub space_to_end sizeof_size_t)
            (size_t_sub total_len space_to_end)
        else
          let mem1 := memcpy context.mem context.write (size_t_bytes message_len) 0
            space_to_end
          let mem2 := memcpy mem1 context.begin (size_t_bytes message_len) space_to_end
            (size_t_sub sizeof_size_t space_to_end)
          memcpy mem2 (context.begin + size_t_sub sizeof_size_t space_to_end) message 0
            (size_t_sub total_len sizeof_size_t)
      ⟨Status.SUCCESS,
        { context with
          mem := mem3
          write := context.begin + size_t_sub total_len space_to_end }⟩

/-- The function `ringbuffer_read` (src/ringbuf.c:81), for a context, a buffer
and a `buffer_len` that are not `NULL`. -/
def ringbuffer_read (context : rbctx_t) (buffer : Mem) (buffer_len : Nat) :
    read_result :=
  if context.read = context.write
      ∨ (context.read = context.end_ ∧ context.write = context.begin) then
    ⟨Status.RINGBUFFER_EMPTY, context, buffer, buffer_len⟩
  else
    -- `read` after the `read == end` renormalisation; `space_to_end` is
    -- `end - read` for that `read` on both paths
    let read1 := if context.read = context.end_ then context.begin else context.read
    let space_to_end := to_size_t (ptrdiff context.end_ read1)
    let message_len_obj :=
      if space_to_end ≥ sizeof_size_t then
        memcpy uninit 0 context.mem read1 sizeof_size_t
      else
        memcpy (memcpy uninit 0 context.mem read1 space_to_end) space_to_end
          context.mem context.begin (size_t_sub sizeof_size_t space_to_end)
    let message_len := load_size_t message_len_obj
    if buffer_len < message_len then
      ⟨Status.OUTPUT_BUFFER_TOO_SMALL, { context with read := read1 }, buffer, buffer_len⟩
    else
      let total_len := size_t_add message_len sizeof_size_t
      let buffer1 :=
        if space_to_end ≥ total_len then
          memcpy buffer 0 context.mem (read1 + sizeof_size_t) message_len
        else if space_to_end ≥ sizeof_size_t then
          memcpy
            (memcpy buffer 0 context.mem (read1 + sizeof_size_t)
              (size_t_sub space_to_end sizeof_size_t))
            (size_t_sub space_to_end sizeof_size_t) context.mem context.begin
            (size_t_sub message_len (size_t_sub space_to_end sizeof_size_t))
        else
          memcpy buffer 0 context.mem
            (context.begin + size_t_sub sizeof_size_t space_to_end) message_len
      let read2 :=
        if space_to_end ≥ total_len then read1 + total_len
        else context.begin + size_t_sub total_len space_to_end
      let read3 := if read2 = context.end_ then context.begin else read2
      ⟨Status.SUCCESS, { context with read := read3 }, buffer1, message_len⟩

/-! ## Vocabulary of the properties -/

/-- The capacity `C` of the arena, `end - begin`. -/
def capacity (s : rbctx_t) : Nat := s.end_ - s.begin

/-- The read cursor as an offset into the arena. -/
def read_offset (s : rbctx_t) : Nat := s.read - s.begin

/-- The write cursor as an offset into the arena. -/
def write_offset (s : rbctx_t) : Nat := s.write - s.begin

/-- The occupied span `(write - read) mod C`. -/
def occupied (s : rbctx_t) : Nat :=
  (((s.write : Int) - (s.read : Int)) % (capacity s : Int)).toNat

/-- The arena byte at offset `i`. -/
def arena_byte (s : rbctx_t) (i : Nat) : Byte := s.mem (s.begin + i)

/-- A payload held by the caller, as the object `message` points to. -/
def ptr (m : List Byte) : Mem := fun i => m.getD i 0

/-- The `n` bytes of `src` from address `a` on. -/
def mem_read (src : Mem) (a n : Nat) : List Byte :=
  (List.range n).map (fun i => src (a + i))

/-- The frame of a payload on the wire: the length prefix, then the payload. -/
def frame (m : List Byte) : List Byte :=
  mem_read (size_t_bytes m.length) 0 sizeof_size_t ++ m

/-- The bytes of a sequence of frames, oldest first. -/
def encode : List (List Byte) → List Byte
  | [] => []
  | m :: q => frame m ++ encode q

/-- The address reached from address `p` by `k` steps forward around the arena. -/
def circ (s : rbctx_t) (p k : Nat) : Nat :=
  if p + k < s.end_ then p + k else p + k - capacity s

/-- The free space in bytes: the distance from `write` forward to `read`, less
the slack byte. -/
def free_bytes (s : rbctx_t) : Nat :=
  if s.read > s.write then s.read - s.write - 1
  else capacity s - 1 - (s.write - s.read)

/-- The number of steps forward around the arena from `write` to address `a`. -/
def dist (s : rbctx_t) (a : Nat) : Nat :=
  if s.write ≤ a then a - s.write else a + capacity s - s.write

/-- The memory after the frame of `message` is laid out circularly from `write`. -/
def frame_mem (s : rbctx_t) (message : Mem) (message_len : Nat) : Mem :=
  fun a =>
    if s.begin ≤ a ∧ a < s.end_ ∧ dist s a < sizeof_size_t + message_len then
      if dist s a < sizeof_size_t then size_t_bytes message_len (dist s a)
      else message (dist s a - sizeof_size_t)
    else s.mem a

/-- The caller's buffer after the `message_len` payload bytes of the frame at
`read` are copied out. -/
def out_mem (s : rbctx_t) (buffer : Mem) (message_len : Nat) : Mem :=
  fun j => if j < message_len then s.mem (circ s s.read (sizeof_size_t + j)) else buffer j

/-- The cursors of an initialised arena: capacity within `size_t`, both
cursors inside `[begin, end)`. -/
structure Cursors (s : rbctx_t) : Prop where
  cap_lt : s.end_ - s.begin < SIZE_T_MOD
  read_ge : s.begin ≤ s.read
  read_lt : s.read < s.end_
  write_ge : s.begin ≤ s.write
  write_lt : s.write < s.end_

/-- The arena `s` holds exactly the frames of `q`, oldest first, between `read`
and `write`. -/
structure Inv (s : rbctx_t) (q : List (List Byte)) : Prop where
  cap_lt : s.end_ - s.begin < SIZE_T_MOD
  read_ge : s.begin ≤ s.read
  read_lt : s.read < s.end_
  used_lt : (encode q).length < capacity s
  write_eq : s.write = circ s s.read (encode q).length
  bytes : ∀ k, k < (encode q).length → s.mem (circ s s.read k) = (encode q).getD k 0

/-! ## Sequences of calls -/

/-- A call of the buffer interface: a write of a payload, or a read into a
buffer of the given capacity. -/
inductive Call where
  | write (m : List Byte)
  | read (buffer_len : Nat)

/-- What a call shows to its caller: the return code and, for a successful
read, the `*buffer_len` bytes delivered. -/
structure Obs where
  status : Status
  output : Option (List Byte)
  deriving DecidableEq

/-- A run of calls on one arena: the context, what each call showed, the
payloads of the writes that returned `SUCCESS` and the payloads that the reads
returning `SUCCESS` delivered, each in call order. -/
structure Run where
  context : rbctx_t
  log : List Obs
  written : List (List Byte)
  delivered : List (List Byte)

/-- The run after one more call. -/
def step (r : Run) : Call → Run
  | Call.write m =>
    let w := ringbuffer_write r.context (ptr m) m.length
    { context := w.context
      log := r.log ++ [⟨w.status, none⟩]
      written := if w.status = Status.SUCCESS then r.written ++ [m] else r.written
      delivered := r.delivered }
  | Call.read buffer_len =>
    let rd := ringbuffer_read r.context uninit buffer_len
    { context := rd.context
      log := r.log ++ [⟨rd.status,
        if rd.status = Status.SUCCESS then some (mem_read rd.buffer 0 rd.buffer_len)
        else none⟩]
      written := r.written
      delivered :=
        if rd.status = Status.SUCCESS then
          r.delivered ++ [mem_read rd.buffer 0 rd.buffer_len]
        else r.delivered }

/-- The run after a sequence of calls. -/
def run (r : Run) (calls : List Call) : Run := calls.foldl step r

/-- The run that starts at `ringbuffer_init`. -/
def start (context0 : rbctx_t) (buffer_location buffer_size : Nat) : Run :=
  ⟨ringbuffer_init context0 buffer_location buffer_size, [], [], []⟩

/-- The frames written and not yet read. -/
def pending (r : Run) : List (List Byte) := r.written.drop r.delivered.length

/-- A call whose payload is an object of the address space: its length plus
the prefix is representable in `size_t`. -/
def valid_call : Call → Prop
  | Call.write m => m.length + sizeof_size_t < SIZE_T_MOD
  | Call.read _ => True

/-- The arena state `s` with unread frames `q` is reached from
`ringbuffer_init` on a storage of `1 ≤ C < 2 ^ 64` bytes by a sequence of
calls. -/
def Reachable (s : rbctx_t) (q : List (List Byte)) : Prop :=
  ∃ (context0 : rbctx_t) (buffer_location buffer_size : Nat) (calls : List Call),
    buffer_location ≠ 0 ∧ 1 ≤ buffer_size ∧ buffer_size < SIZE_T_MOD ∧
    (∀ c ∈ calls, valid_call c) ∧
    (run (start context0 buffer_location buffer_size) calls).context = s ∧
    pending (run (start context0 buffer_location buffer_size) calls) = q

/-! ## The abstract bounded FIFO queue -/

/-- The bytes the queued frames take: the sum of `len + sizeof(size_t)`. -/
def fifo_used (q : List (List Byte)) : Nat :=
  (q.map (fun m => m.length + sizeof_size_t)).sum

/-- One call on the abstract queue of capacity `C`: a write enqueues when the
used bytes stay within `C - 1` and reports `Full` otherwise; a read reports
`Empty` on the empty queue, `OutputTooSmall` when the oldest frame is longer
than the buffer, and otherwise dequeues the oldest frame. -/
def fifo_step (C : Nat) (q : List (List Byte)) : Call → Obs × List (List Byte)
  | Call.write m =>
    if fifo_used q + (m.length + sizeof_size_t) ≤ C - 1 then
      (⟨Status.SUCCESS, none⟩, q ++ [m])
    else (⟨Status.RINGBUFFER_FULL, none⟩, q)
  | Call.read buffer_len =>
    match q with
    | [] => (⟨Status.RINGBUFFER_EMPTY, none⟩, [])
    | m :: rest =>
      if buffer_len < m.length then (⟨Status.OUTPUT_BUFFER_TOO_SMALL, none⟩, m :: rest)
      else (⟨Status.SUCCESS, some m⟩, rest)

/-- A sequence of calls on the abstract queue: what each call shows, and the
queue left. -/
def fifo_run (C : Nat) (q : List (List Byte)) : List Call → List Obs × List (List Byte)
  | [] => ([], q)
  | c :: calls =>
    let r := fifo_step C q c
    let rs := fifo_run C r.2 calls
    (r.1 :: rs.1, rs.2)

/-- Modelled from the spec: the helper `write_circular(offset, bytes) ->
new_offset` of the design notes, which the source does not have: it stores
`bytes` one after the other from offset `offset` on, stepping circularly
through the arena, and returns the memory and the offset after the last byte. -/
def write_circular (mem : Mem) (begin C : Nat) (offset : Nat) : List Byte → Mem × Nat
  | [] => (mem, offset)
  | x :: bytes =>
    write_circular (fun a => if a = begin + offset then x else mem a) begin C
      ((offset + 1) % C) bytes

/-! ## Definitions of the proofs and of the examples -/

/-- The run `r` on the storage `[loc, loc + size)` stands in the invariant with
the abstract queue `q`. -/
structure Sim (loc size : Nat) (r : Run) (q : List (List Byte)) : Prop where
  inv : Inv r.context q
  begin_eq : r.context.begin = loc
  end_eq : r.context.end_ = loc + size
  written_eq : r.written = r.delivered ++ q

/-- An empty 24-byte arena with both cursors at offset 20. -/
def empty_at_20 : rbctx_t := ⟨uninit, 4096, 4120, 4116, 4116⟩

/-- Validity of a call is decidable. -/
instance valid_call_decidable : DecidablePred valid_call := fun c => by
  cases c <;> simp only [valid_call] <;> infer_instance

/-- A context before `ringbuffer_init`. -/
def blank_context : rbctx_t := ⟨uninit, 0, 0, 0, 0⟩

/-- Six calls: two writes, a read into a buffer that is too small, two reads
that succeed and a read of the empty arena. -/
def six_calls : List Call :=
  [Call.write [1, 2, 3], Call.read 2, Call.write [4, 5], Call.read 8, Call.read 8, Call.read 8]

/-- A write, a read and a write. -/
def three_calls : List Call := [Call.write [1, 2, 3], Call.read 8, Call.write [4, 5]]

/-- The 24-byte arena after the write of a 3-byte payload. -/
def one_frame_state : rbctx_t := (run (start blank_context 4096 24) [Call.write [1, 2, 3]]).context

/-- The 24-byte arena after the write of a 3-byte payload and its read. -/
def drained_state : rbctx_t :=
  (run (start blank_context 4096 24) [Call.write [1, 2, 3], Call.read 8]).context

/-- The 17-byte arena after the write of an 8-byte payload: 16 bytes occupied. -/
def full_state : rbctx_t := (run (start blank_context 4096 17) [Call.write [1, 2, 3, 4, 5, 6, 7, 8]]).context

/-- The first payload of the scenario, 10 bytes. -/
def scenario_first : List Byte := [1, 2, 3, 4, 5, 6, 7, 8, 9, 10]

/-- The second payload of the scenario, 40 bytes. -/
def scenario_second : List Byte := (List.range 40).map (fun i => Fin.ofNat (100 + i))

/-- The third payload of the scenario, 10 bytes. -/
def scenario_third : List Byte := [201, 202, 203, 204, 205, 206, 207, 208, 209, 210]

/-- The arena of the scenario: `ringbuffer_init` on 64 bytes. -/
def scenario_init : rbctx_t := ringbuffer_init blank_context 4096 64

/-- The write of the first payload. -/
def scenario_write1 : write_result := ringbuffer_write scenario_init (ptr scenario_first) 10

/-- The write of the second payload while the first frame is unread. -/
def scenario_full1 : write_result := ringbuffer_write scenario_write1.context (ptr scenario_second) 40

/-- A second attempt to write the second payload. -/
def scenario_full2 : write_result := ringbuffer_write scenario_full1.context (ptr scenario_second) 40

/-- The read of the first frame. -/
def scenario_read1 : read_result := ringbuffer_read scenario_full2.context uninit 64

/-- The write of the second payload after the first frame is read. -/
def scenario_write2 : write_result := ringbuffer_write scenario_read1.context (ptr scenario_second) 40

/-- The read of the second frame. -/
def scenario_read2 : read_result := ringbuffer_read scenario_write2.context uninit 64

/-- The write of the third payload. -/
def scenario_write3 : write_result := ringbuffer_write scenario_read2.context (ptr scenario_third) 10

/-- The read of the third frame. -/
def scenario_read3 : read_result := ringbuffer_read scenario_write3.context uninit 64

/-- The offset `n` steps forward of `offset` in a circle of `C` offsets. -/
def wrap_add (C offset n : Nat) : Nat :=
  if offset + n < C then offset + n else offset + n - C

/-- The number of steps forward from offset `offset` to address `a` in the circle
of `C` bytes that starts at `begin`. -/
def wrap_dist (begin C offset a : Nat) : Nat :=
  if begin + offset ≤ a then a - (begin + offset) else a + C - (begin + offset)

/-- The empty 24-byte arena with both cursors at offset 14, after the write of a
6-byte payload and its read. -/
def offset14_state : rbctx_t :=
  (run (start blank_context 4096 24) [Call.write [1, 2, 3, 4, 5, 6], Call.read 8]).context

/-! ## The daemon of `src/daemon.c` -/

/-- Modelled from the spec: `connection_t` of `include/daemon.h` (the header is
not among the sources), a producer descriptor with the origin `from`, the
destination `to`, both `int`, and the name of the source file. -/
structure connection_t where
  from_ : Int
  to_ : Int
  filename : String

/-- The store `p[0] = v` of one byte at address `p`. -/
def store_byte (mem : Mem) (p : Nat) (v : Byte) : Mem :=
  fun a => if a = p then v else mem a

/-! ### `write_packets` -/

/-- The body of one pass of the loop of `write_packets` (src/daemon.c:49-55)
for a chunk that `fread` delivered: the chunk is stored at `buf + 3 *
sizeof(size_t)`, then `from`, `to` and `packet_id` are copied to the start of
`buf`; the result is `buf` and the length `read + 3 * sizeof(size_t)` that is
passed to `ringbuffer_write`. -/
def write_packets_frame (buf : Mem) (from_ to_ packet_id : Nat) (chunk : List Byte) :
    Mem × Nat :=
  let read := chunk.length
  let buf1 := memcpy buf (3 * sizeof_size_t) (ptr chunk) 0 read
  let buf2 := memcpy buf1 0 (size_t_bytes from_) 0 sizeof_size_t
  let buf3 := memcpy buf2 sizeof_size_t (size_t_bytes to_) 0 sizeof_size_t
  let buf4 := memcpy buf3 (2 * sizeof_size_t) (size_t_bytes packet_id) 0 sizeof_size_t
  (buf4, size_t_add read (3 * sizeof_size_t))

/-- The loop of `write_packets` (src/daemon.c:46-61) on a source whose unread
bytes are `file`: each pass reads up to `MESSAGE_SIZE - 3 * sizeof(size_t)` bytes
and, when it read any, offers the tagged frame to `ringbuffer_write` until that
returns `SUCCESS`; the loop ends with the first pass that reads nothing. The
result lists the `(message, message_len)` offered, in order. `fuel` bounds the
number of passes. -/
def write_packets_loop (MESSAGE_SIZE from_ to_ : Nat) :
    Nat → List Byte → Nat → Mem → List (Mem × Nat)
  | 0, _, _, _ => []
  | fuel + 1, file, packet_id, buf =>
    let msg_size := size_t_sub MESSAGE_SIZE (3 * sizeof_size_t)
    let chunk := file.take msg_size
    if chunk.length > 0 then
      let offered := write_packets_frame buf from_ to_ packet_id chunk
      offered :: write_packets_loop MESSAGE_SIZE from_ to_ fuel (file.drop msg_size)
        (size_t_add packet_id 1) offered.1
    else []

/-- The function `write_packets` (src/daemon.c:30) for the descriptor
`connection` whose source file holds `file`: the frames it offers to
`ringbuffer_write`, in order. A pass consumes at least one byte, so
`file.length + 1` passes reach the end of the source. -/
def write_packets (MESSAGE_SIZE : Nat) (connection : connection_t) (file : List Byte) :
    List (Mem × Nat) :=
  write_packets_loop MESSAGE_SIZE (to_size_t connection.from_) (to_size_t connection.to_)
    (file.length + 1) file 0 uninit

/-! ### `process_packets` -/

/-- The calls that one pass of the loop of `process_packets` makes, in order.
The mark `sprintf_overflow` stands for a `sprintf` that wrote past
`char filename[20]`: the behaviour of the rest of the pass is undefined and the
list ends with it. -/
inductive Event where
  | ringbuffer_read
  | printf
  | mutex_lock
  | fopen (filename : String)
  | fwrite (bytes : List Byte)
  | fclose
  | mutex_unlock
  | usleep
  | testcancel
  | sprintf_overflow
  deriving DecidableEq

/-- The function `tolower` of the C locale on an `unsigned char`. -/
def tolower (c : Byte) : Byte :=
  if 65 ≤ c.val ∧ c.val ≤ 90 then Fin.ofNat (c.val + 32) else c

/-- The string `"malicious"` (src/daemon.c:108), without its terminating NUL. -/
def malicious_str : List Byte := [109, 97, 108, 105, 99, 105, 111, 117, 115]

/-- The loop that sets `is_malicious` (src/daemon.c:110-118), from the address
`i` of the current character and the index `j` into `malicious_str`; `fuel`
bounds the number of characters examined. -/
def scan_malicious (buffer : Mem) : Nat → Nat → Nat → Bool
  | 0, _, _ => false
  | fuel + 1, i, j =>
    if buffer i = 0 then false
    else if tolower (buffer i) = malicious_str.getD j 0 then
      if malicious_str.getD (j + 1) 0 = 0 then true
      else scan_malicious buffer fuel (i + 1) (j + 1)
    else scan_malicious buffer fuel (i + 1) j

/-- The bytes of the C string at address `p`: those before the first NUL;
`fuel` bounds the number of bytes examined. -/
def c_string (mem : Mem) : Nat → Nat → List Byte
  | 0, _ => []
  | fuel + 1, p => if mem p = 0 then [] else mem p :: c_string mem fuel (p + 1)

/-- The index into `buffer` at which `process_packets` stores the terminating
NUL (src/daemon.c:96-100): `message` is `buffer + 3 * sizeof(size_t)`. -/
def terminator_index (len : Nat) : Nat :=
  if len > 3 * sizeof_size_t then
    3 * sizeof_size_t + size_t_sub len (3 * sizeof_size_t)
  else 3 * sizeof_size_t

/-- The test `from == to || from == 42 || to == 42 || from + to == 42`
(src/daemon.c:104). -/
def port_rule (from_ to_ : Nat) : Bool :=
  from_ = to_ || from_ = 42 || to_ = 42 || size_t_add from_ to_ = 42

/-- The call `sprintf(filename, "%zu.txt", to)` into `char filename[20]`
(src/daemon.c:123-124): the name it stores, the decimal digits of `to` followed
by `.txt`, or `none` when the name and its terminating NUL need more than the 20
bytes of `filename`, where `sprintf` writes past the array. -/
def sprintf_filename (to_ : Nat) : Option String :=
  if (Nat.repr to_ ++ ".txt").length + 1 ≤ 20 then some (Nat.repr to_ ++ ".txt") else none

/-- The `from` that `process_packets` decodes (src/daemon.c:91). -/
def decoded_from (buffer : Mem) : Nat :=
  load_size_t (memcpy uninit 0 buffer 0 sizeof_size_t)

/-- The `to` that `process_packets` decodes (src/daemon.c:92). -/
def decoded_to (buffer : Mem) : Nat :=
  load_size_t (memcpy uninit 0 buffer sizeof_size_t sizeof_size_t)

/-- The `packet_id` that `process_packets` decodes (src/daemon.c:93); the
function makes no further use of it. -/
def decoded_packet_id (buffer : Mem) : Nat :=
  load_size_t (memcpy uninit 0 buffer (2 * sizeof_size_t) sizeof_size_t)

/-- What one pass of the loop of `process_packets` leaves behind: the arena,
the scratch `buffer` and the calls made. -/
structure pass_result where
  context : rbctx_t
  buffer : Mem
  events : List Event

/-- The branch `status == SUCCESS` of `process_packets` (src/daemon.c:89-132)
on the `buffer` and `len` that `ringbuffer_read` delivered, up to the end of the
pass; `fopen_ok` tells whether `fopen` returns a stream. `MESSAGE_SIZE` bounds
the characters that the string functions examine. -/
def handle_frame (MESSAGE_SIZE : Nat) (buffer : Mem) (len : Nat) (fopen_ok : Bool) :
    Mem × List Event :=
  let from_ := decoded_from buffer
  let to_ := decoded_to buffer
  let message := 3 * sizeof_size_t
  let buffer1 := store_byte buffer (terminator_index len) 0
  if port_rule from_ to_ then
    (buffer1, [Event.printf])
  else if scan_malicious buffer1 MESSAGE_SIZE message 0 then
    (buffer1, [Event.printf])
  else
    match sprintf_filename to_ with
    | none => (buffer1, [Event.printf, Event.sprintf_overflow])
    | some filename =>
      (buffer1,
        [Event.printf, Event.mutex_lock, Event.fopen filename]
        ++ (if fopen_ok then
              [Event.fwrite (c_string buffer1 MESSAGE_SIZE message), Event.fclose]
            else [])
        ++ [Event.mutex_unlock, Event.testcancel])

/-- One pass of the loop of `process_packets` (src/daemon.c:86-138). -/
def process_packets_pass (MESSAGE_SIZE : Nat) (context : rbctx_t) (buffer : Mem)
    (fopen_ok : Bool) : pass_result :=
  let rd := ringbuffer_read context buffer MESSAGE_SIZE
  if rd.status = Status.SUCCESS then
    let h := handle_frame MESSAGE_SIZE rd.buffer rd.buffer_len fopen_ok
    ⟨rd.context, h.1, Event.ringbuffer_read :: h.2⟩
  else if rd.status = Status.RINGBUFFER_EMPTY then
    ⟨rd.context, rd.buffer, [Event.ringbuffer_read, Event.usleep, Event.testcancel]⟩
  else
    ⟨rd.context, rd.buffer, [Event.ringbuffer_read, Event.testcancel]⟩

/-! ### `simpledaemon` -/

/-- What `simpledaemon` did when it returns: its return value and the number of
`pthread_create` calls for `write_packets` and for `process_packets`. -/
structure daemon_result where
  ret : Int
  writer_threads : Nat
  reader_threads : Nat
  deriving DecidableEq

/-- The loop that validates the port numbers (src/daemon.c:160-169): `true`
when it runs to its end, `false` when it returns -1. -/
def ports_valid (MINIMUM_PORT MAXIMUM_PORT : Int) : List connection_t → Bool
  | [] => true
  | c :: connections =>
    if c.from_ > MAXIMUM_PORT ∨ c.to_ > MAXIMUM_PORT ∨
        c.from_ < MINIMUM_PORT ∨ c.to_ < MINIMUM_PORT then false
    else ports_valid MINIMUM_PORT MAXIMUM_PORT connections

/-- The function `simpledaemon` (src/daemon.c:142), with `rbuf` the pointer that
`malloc` returns and the macros of `include/daemon.h` as parameters; on the path
that creates the threads the return value is that of the last line, reached
when the joins return. -/
def simpledaemon (MINIMUM_PORT MAXIMUM_PORT : Int) (NUMBER_OF_PROCESSING_THREADS : Nat)
    (rbuf : Nat) (connections : List connection_t) : daemon_result :=
  if rbuf = 0 then ⟨-1, 0, 0⟩
  else if ports_valid MINIMUM_PORT MAXIMUM_PORT connections = false then ⟨-1, 0, 0⟩
  else ⟨0, connections.length, NUMBER_OF_PROCESSING_THREADS⟩


/-- Modelled from the claim's words, equality of two characters without regard
to case: the bytes are equal, or one is a lower-case letter (`a` to `z`, 97 to
122) and the other is its upper-case form (`A` to `Z`, 65 to 90), which is 32
less. -/
def eq_ignoring_case (c l : Byte) : Prop :=
  c = l ∨ (97 ≤ l.val ∧ l.val ≤ 122 ∧ c.val + 32 = l.val) ∨
    (97 ≤ c.val ∧ c.val ≤ 122 ∧ l.val + 32 = c.val)

instance eq_ignoring_case_decidable (c l : Byte) : Decidable (eq_ignoring_case c l) := by
  unfold eq_ignoring_case
  infer_instance

/-- The payload of a frame of the daemon: origin, destination and sequence id,
each a `size_t`, then the raw bytes. -/
def tagged (from_ to_ packet_id : Nat) (chunk : List Byte) : List Byte :=
  mem_read (size_t_bytes from_) 0 sizeof_size_t ++ mem_read (size_t_bytes to_) 0 sizeof_size_t
    ++ mem_read (size_t_bytes packet_id) 0 sizeof_size_t ++ chunk

/-! ## Further example states -/

/-- The 24-byte arena as `ringbuffer_init` leaves it. -/
def fresh_state : rbctx_t := ringbuffer_init blank_context 4096 24

/-- The arena that `ringbuffer_init` leaves on a storage of 0 bytes. -/
def zero_capacity_state : rbctx_t := ringbuffer_init blank_context 4096 0

/-- A caller's object of which every byte is 7. -/
def sevens : Mem := fun _ => 7

/-- A descriptor with origin 1 and destination 2. -/
def sample_connection : connection_t := ⟨1, 2, "in.txt"⟩

/-- A descriptor with destination 10000. -/
def far_connection : connection_t := ⟨1, 10000, "in.txt"⟩

/-- A source of 20 bytes, the letters `A` to `T`. -/
def sample_source : List Byte := (List.range 20).map (fun i => Fin.ofNat (65 + i))

/-- A scratch buffer of which every byte is 255. -/
def scratch : Mem := fun _ => 255

/-- The 1024-byte arena of `simpledaemon` after the given payload is written. -/
def arena_holding (payload : List Byte) : rbctx_t :=
  (run (start blank_context 4096 1024) [Call.write payload]).context

/-! ## Arithmetic of `size_t` -/

theorem to_size_t_ptrdiff (p q : Nat) (hq : q ≤ p) (h : p - q < SIZE_T_MOD) :
    to_size_t (ptrdiff p q) = p - q := by
  simp only [to_size_t, ptrdiff, SIZE_T_MOD] at *
  omega

theorem size_t_add_eq (a b : Nat) (h : a + b < SIZE_T_MOD) : size_t_add a b = a + b := by
  simp only [size_t_add, SIZE_T_MOD] at *
  omega

theorem size_t_sub_eq (a b : Nat) (hb : b ≤ a) (h : a < SIZE_T_MOD) :
    size_t_sub a b = a - b := by
  simp only [size_t_sub, to_size_t, SIZE_T_MOD] at *
  omega

theorem size_t_bytes_val (v i : Nat) : (size_t_bytes v i).val = v / 256 ^ i % 256 := rfl

theorem load_size_t_bytes (obj : Mem) (v : Nat) (hv : v < SIZE_T_MOD)
    (h : ∀ i, i < sizeof_size_t → obj i = size_t_bytes v i) : load_size_t obj = v := by
  have e : load_size_t obj =
      (obj 0).val * 256 ^ 0 + ((obj 1).val * 256 ^ 1 + ((obj 2).val * 256 ^ 2 +
      ((obj 3).val * 256 ^ 3 + ((obj 4).val * 256 ^ 4 + ((obj 5).val * 256 ^ 5 +
      ((obj 6).val * 256 ^ 6 + ((obj 7).val * 256 ^ 7 + 0))))))) := rfl
  rw [e, h 0 (by decide), h 1 (by decide), h 2 (by decide), h 3 (by decide), h 4 (by decide),
    h 5 (by decide), h 6 (by decide), h 7 (by decide)]
  simp only [size_t_bytes_val, SIZE_T_MOD] at *
  norm_num
  omega

/-! ## What one call does -/

theorem write_space_free_eq (s : rbctx_t) (hc : Cursors s) :
    write_space_free s = free_bytes s := by
  obtain ⟨mem, b, e, r, w⟩ := s
  obtain ⟨h1, h2, h3, h4, h5⟩ := hc
  simp only [write_space_free, free_bytes, capacity, to_size_t, ptrdiff, SIZE_T_MOD] at *
  split_ifs <;> omega

theorem free_bytes_lt (s : rbctx_t) (hc : Cursors s) : free_bytes s < capacity s := by
  obtain ⟨mem, b, e, r, w⟩ := s
  obtain ⟨h1, h2, h3, h4, h5⟩ := hc
  simp only [free_bytes, capacity] at *
  split_ifs <;> omega

theorem write_full (s : rbctx_t) (message : Mem) (message_len : Nat) (hc : Cursors s)
    (hlen : message_len + sizeof_size_t < SIZE_T_MOD)
    (hfull : free_bytes s < sizeof_size_t + message_len) :
    ringbuffer_write s message message_len = ⟨Status.RINGBUFFER_FULL, s⟩ := by
  unfold ringbuffer_write
  simp only [write_space_free_eq s hc, size_t_add_eq _ _ hlen]
  rw [if_pos (by omega)]

theorem write_ok (s : rbctx_t) (message : Mem) (message_len : Nat) (hc : Cursors s)
    (hlen : message_len + sizeof_size_t < SIZE_T_MOD)
    (hfit : sizeof_size_t + message_len ≤ free_bytes s) :
    ringbuffer_write s message message_len =
      ⟨Status.SUCCESS, { s with mem := frame_mem s message message_len,
                                write := circ s s.write (sizeof_size_t + message_len) }⟩ := by
  have hlt := free_bytes_lt s hc
  unfold ringbuffer_write
  simp only [write_space_free_eq s hc, size_t_add_eq _ _ hlen]
  rw [if_neg (by omega)]
  obtain ⟨mem, b, e, r, w⟩ := s
  obtain ⟨h1, h2, h3, h4, h5⟩ := hc
  simp only [to_size_t_ptrdiff e w (by simpa using h5.le) (by simp only [] at *; omega)]
  simp only [free_bytes, capacity, sizeof_size_t] at *
  by_cases hA : e - w ≥ message_len + 8
  · rw [if_pos hA]
    simp only [write_result.mk.injEq, rbctx_t.mk.injEq, true_and, and_true, circ, capacity]
    refine ⟨?_, ?_⟩
    · funext a
      simp only [memcpy, frame_mem, dist, capacity, sizeof_size_t]
      split_ifs <;> first | rfl | omega | (congr 1; omega)
    · split_ifs at hfit ⊢ <;> omega
  · rw [if_neg hA]
    have e1 : size_t_sub (message_len + 8) (e - w) = message_len + 8 - (e - w) :=
      size_t_sub_eq _ _ (by omega) hlen
    by_cases hB : e - w ≥ 8
    · have e2 : size_t_sub (e - w) 8 = e - w - 8 :=
        size_t_sub_eq _ _ hB (by simp only [SIZE_T_MOD] at *; omega)
      simp only [if_pos hB, e1, e2, write_result.mk.injEq, rbctx_t.mk.injEq, true_and, and_true,
        circ, capacity]
      refine ⟨?_, ?_⟩
      · funext a
        simp only [memcpy, frame_mem, dist, capacity, sizeof_size_t]
        split_ifs at hfit ⊢ <;> first | rfl | omega | (congr 1; omega)
      · split_ifs at hfit ⊢ <;> omega
    · have e2 : size_t_sub 8 (e - w) = 8 - (e - w) :=
        size_t_sub_eq _ _ (by omega) (by unfold SIZE_T_MOD; omega)
      have e3 : size_t_sub (message_len + 8) 8 = message_len :=
        (size_t_sub_eq _ _ (by omega) hlen).trans (by omega)
      simp only [if_neg hB, e1, e2, e3, write_result.mk.injEq, rbctx_t.mk.injEq, true_and,
        and_true, circ, capacity]
      refine ⟨?_, ?_⟩
      · funext a
        simp only [memcpy, frame_mem, dist, capacity, sizeof_size_t]
        split_ifs at hfit ⊢ <;> first | rfl | omega | (congr 1; omega)
      · split_ifs at hfit ⊢ <;> omega

theorem size_t_add_lt (a b : Nat) : size_t_add a b < SIZE_T_MOD :=
  Nat.mod_lt _ (by decide)

theorem write_cursor (s : rbctx_t) (message : Mem) (message_len : Nat) (hc : Cursors s) :
    ((ringbuffer_write s message message_len).status = Status.RINGBUFFER_FULL ↔
      free_bytes s < size_t_add message_len sizeof_size_t) ∧
    ((ringbuffer_write s message message_len).status = Status.SUCCESS ↔
      size_t_add message_len sizeof_size_t ≤ free_bytes s) ∧
    ((ringbuffer_write s message message_len).status = Status.SUCCESS →
      (ringbuffer_write s message message_len).context.write
        = circ s s.write (size_t_add message_len sizeof_size_t) ∧
      (ringbuffer_write s message message_len).context.read = s.read ∧
      (ringbuffer_write s message message_len).context.begin = s.begin ∧
      (ringbuffer_write s message message_len).context.end_ = s.end_) := by
  have hlt := free_bytes_lt s hc
  have ht := size_t_add_lt message_len sizeof_size_t
  unfold ringbuffer_write
  simp only [write_space_free_eq s hc]
  generalize size_t_add message_len sizeof_size_t = t at ht ⊢
  by_cases hfull : t > free_bytes s
  · simp only [if_pos hfull, reduceCtorEq, false_iff, true_iff, not_le, false_implies, and_true]
    exact ⟨hfull, hfull⟩
  · simp only [if_neg hfull]
    obtain ⟨h1, h2, h3, h4, h5⟩ := hc
    have hste : to_size_t (ptrdiff s.end_ s.write) = s.end_ - s.write :=
      to_size_t_ptrdiff _ _ h5.le (by omega)
    simp only [hste]
    by_cases hA : s.end_ - s.write ≥ t
    · simp only [if_pos hA, reduceCtorEq, false_iff, true_iff, not_lt, true_implies, and_true]
      refine ⟨by omega, by omega, ?_⟩
      simp only [circ, capacity, free_bytes] at *
      split_ifs at hfull ⊢ <;> omega
    · have e1 : size_t_sub t (s.end_ - s.write) = t - (s.end_ - s.write) :=
        size_t_sub_eq _ _ (by omega) ht
      simp only [if_neg hA, e1, reduceCtorEq, false_iff, true_iff, not_lt, true_implies,
        and_true]
      refine ⟨by omega, by omega, ?_⟩
      simp only [circ, capacity, free_bytes] at *
      split_ifs at hfull ⊢ <;> omega

theorem read_empty (s : rbctx_t) (buffer : Mem) (buffer_len : Nat) (h : s.read = s.write) :
    ringbuffer_read s buffer buffer_len = ⟨Status.RINGBUFFER_EMPTY, s, buffer, buffer_len⟩ := by
  unfold ringbuffer_read
  rw [if_pos (Or.inl h)]

theorem read_header (s : rbctx_t) (len : Nat)
    (hcap : s.end_ - s.begin < SIZE_T_MOD) (hr1 : s.begin ≤ s.read) (hr2 : s.read < s.end_)
    (hfit : sizeof_size_t + len < capacity s)
    (hdr : ∀ i, i < sizeof_size_t → s.mem (circ s s.read i) = size_t_bytes len i) :
    load_size_t
      (if s.end_ - s.read ≥ sizeof_size_t then memcpy uninit 0 s.mem s.read sizeof_size_t
       else memcpy (memcpy uninit 0 s.mem s.read (s.end_ - s.read)) (s.end_ - s.read)
          s.mem s.begin (size_t_sub sizeof_size_t (s.end_ - s.read))) = len := by
  apply load_size_t_bytes _ _ (by simp only [capacity, sizeof_size_t] at *; omega)
  intro i hi
  rw [← hdr i hi]
  obtain ⟨mem, b, e, r, w⟩ := s
  simp only [capacity, sizeof_size_t, circ] at *
  by_cases hB : e - r ≥ 8
  · simp only [if_pos hB, memcpy]
    split_ifs <;> first | omega | rfl
  · have e2 : size_t_sub 8 (e - r) = 8 - (e - r) :=
      size_t_sub_eq _ _ (by omega) (by unfold SIZE_T_MOD; omega)
    simp only [if_neg hB, memcpy, e2]
    split_ifs <;> first | omega | (congr 1; omega) | rfl

theorem read_small (s : rbctx_t) (buffer : Mem) (buffer_len len : Nat)
    (hcap : s.end_ - s.begin < SIZE_T_MOD) (hr1 : s.begin ≤ s.read) (hr2 : s.read < s.end_)
    (hne : s.read ≠ s.write)
    (hfit : sizeof_size_t + len < capacity s)
    (hdr : ∀ i, i < sizeof_size_t → s.mem (circ s s.read i) = size_t_bytes len i)
    (hsmall : buffer_len < len) :
    ringbuffer_read s buffer buffer_len =
      ⟨Status.OUTPUT_BUFFER_TOO_SMALL, s, buffer, buffer_len⟩ := by
  have hre : ¬ (s.read = s.end_) := by omega
  have hste : to_size_t (ptrdiff s.end_ s.read) = s.end_ - s.read :=
    to_size_t_ptrdiff _ _ hr2.le (by omega)
  unfold ringbuffer_read
  rw [if_neg (by simp [hne, hre])]
  simp only [if_neg hre, hste, read_header s len hcap hr1 hr2 hfit hdr]
  rw [if_pos hsmall]

theorem read_ok (s : rbctx_t) (buffer : Mem) (buffer_len len : Nat)
    (hcap : s.end_ - s.begin < SIZE_T_MOD) (hr1 : s.begin ≤ s.read) (hr2 : s.read < s.end_)
    (hne : s.read ≠ s.write)
    (hfit : sizeof_size_t + len < capacity s)
    (hdr : ∀ i, i < sizeof_size_t → s.mem (circ s s.read i) = size_t_bytes len i)
    (hbig : len ≤ buffer_len) :
    ringbuffer_read s buffer buffer_len =
      ⟨Status.SUCCESS, { s with read := circ s s.read (sizeof_size_t + len) },
        out_mem s buffer len, len⟩ := by
  have hre : ¬ (s.read = s.end_) := by omega
  have hste : to_size_t (ptrdiff s.end_ s.read) = s.end_ - s.read :=
    to_size_t_ptrdiff _ _ hr2.le (by omega)
  have hlen : len + sizeof_size_t < SIZE_T_MOD := by
    simp only [capacity, sizeof_size_t] at *; omega
  unfold ringbuffer_read
  rw [if_neg (by simp [hne, hre])]
  simp only [if_neg hre, hste, read_header s len hcap hr1 hr2 hfit hdr]
  rw [if_neg (by omega)]
  simp only [size_t_add_eq _ _ hlen]
  obtain ⟨mem, b, e, r, w⟩ := s
  simp only [capacity, sizeof_size_t, SIZE_T_MOD] at *
  simp only [read_result.mk.injEq, rbctx_t.mk.injEq, true_and, and_true, circ, capacity]
  by_cases hA : e - r ≥ len + 8
  · simp only [if_pos hA]
    refine ⟨?_, ?_⟩
    · split_ifs <;> omega
    · funext j
      simp only [memcpy, out_mem, circ, capacity, sizeof_size_t]
      split_ifs <;> first | rfl | omega | (congr 1; omega)
  · have e1 : size_t_sub (len + 8) (e - r) = len + 8 - (e - r) :=
      size_t_sub_eq _ _ (by omega) (by unfold SIZE_T_MOD; omega)
    simp only [if_neg hA, e1]
    by_cases hB : e - r ≥ 8
    · have e2 : size_t_sub (e - r) 8 = e - r - 8 :=
        size_t_sub_eq _ _ hB (by unfold SIZE_T_MOD; omega)
      have e3 : size_t_sub len (e - r - 8) = len - (e - r - 8) :=
        size_t_sub_eq _ _ (by omega) (by unfold SIZE_T_MOD; omega)
      simp only [if_pos hB, e2, e3]
      refine ⟨?_, ?_⟩
      · split_ifs <;> omega
      · funext j
        simp only [memcpy, out_mem, circ, capacity, sizeof_size_t]
        split_ifs <;> first | rfl | omega | (congr 1; omega)
    · have e2 : size_t_sub 8 (e - r) = 8 - (e - r) :=
        size_t_sub_eq _ _ (by omega) (by unfold SIZE_T_MOD; omega)
      simp only [if_neg hB, e2]
      refine ⟨?_, ?_⟩
      · split_ifs <;> omega
      · funext j
        simp only [memcpy, out_mem, circ, capacity, sizeof_size_t]
        split_ifs <;> first | rfl | omega | (congr 1; omega)

/-! ## Frames as lists -/

theorem mem_read_length (src : Mem) (a n : Nat) : (mem_read src a n).length = n := by
  simp [mem_read]

theorem mem_read_getD (src : Mem) (a n k : Nat) (d : Byte) (h : k < n) :
    (mem_read src a n).getD k d = src (a + k) := by
  simp [mem_read, List.getD_eq_getElem?_getD, List.getElem?_map, List.getElem?_range h]

theorem frame_length (m : List Byte) : (frame m).length = sizeof_size_t + m.length := by
  simp [frame, mem_read_length]

theorem frame_getD_header (m : List Byte) (k : Nat) (h : k < sizeof_size_t) :
    (frame m).getD k 0 = size_t_bytes m.length k := by
  unfold frame
  rw [List.getD_append _ _ _ _ (by rw [mem_read_length]; exact h), mem_read_getD _ _ _ _ _ h,
    Nat.zero_add]

theorem frame_getD_payload (m : List Byte) (j : Nat) :
    (frame m).getD (sizeof_size_t + j) 0 = m.getD j 0 := by
  unfold frame
  rw [List.getD_append_right _ _ _ _ (by rw [mem_read_length]; omega), mem_read_length]
  congr 1
  omega

theorem encode_append (q : List (List Byte)) (m : List Byte) :
    encode (q ++ [m]) = encode q ++ frame m := by
  induction q with
  | nil => simp [encode]
  | cons x q ih => simp [encode, ih]

theorem encode_length (q : List (List Byte)) : (encode q).length = fifo_used q := by
  induction q with
  | nil => simp [encode, fifo_used]
  | cons x q ih =>
    simp only [encode, List.length_append, frame_length, ih, fifo_used, List.map_cons,
      List.sum_cons]
    omega

/-! ## The invariant -/

theorem inv_cursors (s : rbctx_t) (q : List (List Byte)) (h : Inv s q) : Cursors s := by
  obtain ⟨h1, h2, h3, h4, h5, -⟩ := h
  refine ⟨h1, h2, h3, ?_, ?_⟩ <;>
  · rw [h5]; simp only [circ, capacity] at *; split_ifs <;> omega

theorem inv_free (s : rbctx_t) (q : List (List Byte)) (h : Inv s q) :
    free_bytes s = capacity s - 1 - (encode q).length := by
  obtain ⟨h1, h2, h3, h4, h5, -⟩ := h
  simp only [free_bytes, h5, circ, capacity] at *
  split_ifs <;> omega

theorem inv_init (context0 : rbctx_t) (buffer_location buffer_size : Nat)
    (hloc : buffer_location ≠ 0) (h1 : 1 ≤ buffer_size) (h2 : buffer_size < SIZE_T_MOD) :
    Inv (ringbuffer_init context0 buffer_location buffer_size) [] := by
  unfold ringbuffer_init
  rw [if_neg hloc]
  refine ⟨?_, ?_, ?_, ?_, ?_, ?_⟩
  · simp only [Nat.add_sub_cancel_left]; exact h2
  · exact Nat.le_refl _
  · simp only []; omega
  · simp only [encode, capacity, List.length_nil]; omega
  · simp only [encode, circ, List.length_nil, Nat.add_zero]
    rw [if_pos (by omega)]
  · intro k hk
    simp [encode] at hk

theorem inv_empty_iff (s : rbctx_t) (q : List (List Byte)) (h : Inv s q) :
    s.read = s.write ↔ q = [] := by
  obtain ⟨h1, h2, h3, h4, h5, -⟩ := h
  cases q with
  | nil => simp [h5, encode, circ, h3]
  | cons m q =>
    simp only [encode, List.length_append, frame_length, sizeof_size_t, capacity, circ] at *
    simp only [reduceCtorEq, iff_false]
    rw [h5]; split_ifs <;> omega

theorem inv_head (s : rbctx_t) (m : List Byte) (q : List (List Byte)) (h : Inv s (m :: q)) :
    sizeof_size_t + m.length < capacity s ∧
    (∀ i, i < sizeof_size_t → s.mem (circ s s.read i) = size_t_bytes m.length i) ∧
    (∀ j, j < m.length → s.mem (circ s s.read (sizeof_size_t + j)) = m.getD j 0) := by
  obtain ⟨h1, h2, h3, h4, h5, h6⟩ := h
  simp only [encode, List.length_append, frame_length] at h4 h6
  refine ⟨by omega, ?_, ?_⟩
  · intro i hi
    rw [h6 i (by omega), List.getD_append _ _ _ _ (by rw [frame_length]; omega),
      frame_getD_header m i hi]
  · intro j hj
    rw [h6 _ (by omega), List.getD_append _ _ _ _ (by rw [frame_length]; omega),
      frame_getD_payload]

theorem inv_out (s : rbctx_t) (m : List Byte) (q : List (List Byte)) (h : Inv s (m :: q))
    (buffer : Mem) : mem_read (out_mem s buffer m.length) 0 m.length = m := by
  obtain ⟨-, -, h3⟩ := inv_head s m q h
  apply List.ext_getElem (by rw [mem_read_length])
  intro i h1 h2
  have e := mem_read_getD (out_mem s buffer m.length) 0 m.length i 0 h2
  rw [List.getD_eq_getElem _ _ h1] at e
  rw [e, Nat.zero_add]
  simp only [out_mem, if_pos h2, h3 i h2, List.getD_eq_getElem _ _ h2]

theorem inv_read (s : rbctx_t) (m : List Byte) (q : List (List Byte)) (h : Inv s (m :: q)) :
    Inv { s with read := circ s s.read (sizeof_size_t + m.length) } q := by
  obtain ⟨h1, h2, h3, h4, h5, h6⟩ := h
  simp only [encode, List.length_append, frame_length] at h4 h5 h6
  refine ⟨h1, ?_, ?_, ?_, ?_, ?_⟩
  · simp only [circ, capacity] at *; split_ifs <;> omega
  · simp only [circ, capacity] at *; split_ifs <;> omega
  · simp only [capacity] at *; omega
  · simp only [circ, capacity] at *; rw [h5]; split_ifs <;> omega
  · intro k hk
    have e := h6 (sizeof_size_t + m.length + k) (by omega)
    rw [List.getD_append_right _ _ _ _ (by rw [frame_length]; omega), frame_length] at e
    have e2 : sizeof_size_t + m.length + k - (sizeof_size_t + m.length) = k := by omega
    rw [e2] at e
    rw [← e]
    simp only [circ, capacity] at *
    congr 1
    split_ifs <;> omega

theorem inv_write (s : rbctx_t) (m : List Byte) (q : List (List Byte)) (h : Inv s q)
    (hfit : sizeof_size_t + m.length ≤ free_bytes s) :
    Inv { s with mem := frame_mem s (ptr m) m.length,
                 write := circ s s.write (sizeof_size_t + m.length) } (q ++ [m]) := by
  have hf := inv_free s q h
  obtain ⟨h1, h2, h3, h4, h5, h6⟩ := h
  rw [hf] at hfit
  refine ⟨h1, h2, h3, ?_, ?_, ?_⟩
  · simp only [encode_append, List.length_append, frame_length, capacity] at *; omega
  · simp only [encode_append, List.length_append, frame_length, circ, capacity] at *
    rw [h5]; split_ifs <;> omega
  · intro k hk
    simp only [encode_append, List.length_append, frame_length] at hk
    rw [encode_append]
    by_cases hk1 : k < (encode q).length
    · rw [List.getD_append _ _ _ _ hk1, ← h6 k hk1]
      simp only [frame_mem, dist, circ, capacity] at *
      rw [if_neg]
      rw [h5]; split_ifs <;> omega
    · rw [List.getD_append_right _ _ _ _ (by omega)]
      have hd : dist s (circ s s.read k) = k - (encode q).length := by
        simp only [dist, circ, capacity] at *
        rw [h5]; split_ifs <;> omega
      have hin : s.begin ≤ circ s s.read k ∧ circ s s.read k < s.end_ := by
        simp only [circ, capacity] at *
        split_ifs <;> omega
      simp only [frame_mem, circ, capacity, dist] at hd hin ⊢
      simp only [hd]
      rw [if_pos ⟨hin.1, hin.2, by omega⟩]
      by_cases hp : k - (encode q).length < sizeof_size_t
      · rw [if_pos hp, frame_getD_header m _ hp]
      · rw [if_neg hp]
        have e3 : k - (encode q).length
            = sizeof_size_t + (k - (encode q).length - sizeof_size_t) := by omega
        conv_rhs => rw [e3, frame_getD_payload]
        rfl

/-! ## Runs and the abstract queue -/

theorem sim_capacity (loc size : Nat) (r : Run) (q : List (List Byte)) (h : Sim loc size r q) :
    capacity r.context = size := by
  simp only [capacity, h.begin_eq, h.end_eq, Nat.add_sub_cancel_left]

theorem sim_pending (loc size : Nat) (r : Run) (q : List (List Byte)) (h : Sim loc size r q) :
    pending r = q := by
  simp only [pending, h.written_eq, List.drop_left]

theorem sim_start (context0 : rbctx_t) (loc size : Nat)
    (hloc : loc ≠ 0) (h1 : 1 ≤ size) (h2 : size < SIZE_T_MOD) :
    Sim loc size (start context0 loc size) [] := by
  refine ⟨inv_init context0 loc size hloc h1 h2, ?_, ?_, ?_⟩ <;>
    simp [start, ringbuffer_init, hloc]

theorem sim_step (loc size : Nat) (r : Run) (q : List (List Byte)) (c : Call)
    (h : Sim loc size r q) (hc : valid_call c) :
    Sim loc size (step r c) (fifo_step size q c).2 ∧
    (step r c).log = r.log ++ [(fifo_step size q c).1] := by
  have hcap := sim_capacity loc size r q h
  obtain ⟨hinv, hb, he, hw⟩ := h
  have hcur := inv_cursors _ _ hinv
  have hfree := inv_free _ _ hinv
  cases c with
  | write m =>
    simp only [valid_call] at hc
    simp only [step, fifo_step]
    by_cases hfit : fifo_used q + (m.length + sizeof_size_t) ≤ size - 1
    · have hfit2 : sizeof_size_t + m.length ≤ free_bytes r.context := by
        rw [hfree, encode_length, hcap]; omega
      rw [write_ok _ _ _ hcur hc hfit2]
      simp only [if_pos hfit, if_true, and_true]
      exact ⟨inv_write _ m q hinv hfit2, hb, he, by rw [hw, List.append_assoc]⟩
    · have hfull : free_bytes r.context < sizeof_size_t + m.length := by
        have h8 : sizeof_size_t = 8 := rfl
        rw [hfree, encode_length, hcap]; omega
      rw [write_full _ _ _ hcur hc hfull]
      simp only [if_neg hfit, reduceCtorEq, if_false, and_true]
      exact ⟨hinv, hb, he, hw⟩
  | read n =>
    simp only [step]
    cases q with
    | nil =>
      rw [read_empty _ _ _ ((inv_empty_iff _ _ hinv).2 rfl)]
      simp only [fifo_step, reduceCtorEq, if_false, and_true]
      exact ⟨hinv, hb, he, hw⟩
    | cons m rest =>
      obtain ⟨g1, g2, g3⟩ := inv_head _ m rest hinv
      have hne : r.context.read ≠ r.context.write := by
        intro e; have := (inv_empty_iff _ _ hinv).1 e; simp at this
      by_cases hs : n < m.length
      · rw [read_small _ _ _ m.length hinv.cap_lt hinv.read_ge hinv.read_lt hne g1 g2 hs]
        simp only [fifo_step, if_pos hs, reduceCtorEq, if_false, and_true]
        exact ⟨hinv, hb, he, hw⟩
      · rw [read_ok _ _ _ m.length hinv.cap_lt hinv.read_ge hinv.read_lt hne g1 g2 (by omega)]
        simp only [fifo_step, if_neg hs, if_true, inv_out _ m rest hinv, and_true]
        exact ⟨inv_read _ m rest hinv, hb, he, by rw [hw]; simp⟩

theorem sim_run (loc size : Nat) (calls : List Call) :
    ∀ (r : Run) (q : List (List Byte)), Sim loc size r q → (∀ c ∈ calls, valid_call c) →
    Sim loc size (run r calls) (fifo_run size q calls).2 ∧
    (run r calls).log = r.log ++ (fifo_run size q calls).1 := by
  induction calls with
  | nil => intro r q h _; simpa [run, fifo_run] using h
  | cons c calls ih =>
    intro r q h hv
    obtain ⟨h1, h2⟩ := sim_step loc size r q c h (hv c (List.mem_cons_self _ _))
    obtain ⟨h3, h4⟩ := ih (step r c) _ h1 (fun x hx => hv x (List.mem_cons_of_mem _ hx))
    refine ⟨by simpa [run, fifo_run] using h3, ?_⟩
    simp only [run, List.foldl_cons, fifo_run] at h4 ⊢
    rw [h4, h2, List.append_assoc, List.singleton_append]

theorem reachable_sim (s : rbctx_t) (q : List (List Byte)) (h : Reachable s q) :
    Inv s q ∧ 1 ≤ capacity s := by
  obtain ⟨c0, loc, size, calls, hloc, h1, h2, hv, rfl, rfl⟩ := h
  obtain ⟨hs, -⟩ := sim_run loc size calls _ _ (sim_start c0 loc size hloc h1 h2) hv
  rw [sim_pending loc size _ _ hs, sim_capacity loc size _ _ hs]
  exact ⟨hs.inv, h1⟩

/-! ## Offsets modulo the capacity -/

theorem circ_eq_mod (s : rbctx_t) (p k : Nat) (hp1 : s.begin ≤ p) (hp2 : p < s.end_)
    (hk : k ≤ capacity s) :
    circ s p k = s.begin + (p - s.begin + k) % capacity s := by
  simp only [circ, capacity] at *
  split_ifs with h
  · rw [Nat.mod_eq_of_lt (by omega)]; omega
  · rw [Nat.mod_eq_sub_mod (by omega), Nat.mod_eq_of_lt (by omega)]; omega

theorem inv_occupied (s : rbctx_t) (q : List (List Byte)) (h : Inv s q) :
    occupied s = (encode q).length := by
  obtain ⟨h1, h2, h3, h4, h5, -⟩ := h
  simp only [occupied, h5, circ, capacity] at *
  split_ifs with hlt
  · have e : (((s.read + (encode q).length : Nat) : Int) - (s.read : Int))
        = ((encode q).length : Int) := by push_cast; omega
    rw [e, Int.emod_eq_of_lt (by omega) (by omega)]
    simp
  · have e : (((s.read + (encode q).length - (s.end_ - s.begin) : Nat) : Int) - (s.read : Int))
        = ((encode q).length : Int) + (-1) * ((s.end_ - s.begin : Nat) : Int) := by omega
    rw [e, Int.add_mul_emod_self, Int.emod_eq_of_lt (by omega) (by omega)]
    simp

/-! ## The circular copy helper -/

theorem write_circular_spec (begin C : Nat) (hC : 0 < C) (bytes : List Byte) :
    ∀ (mem : Mem) (offset : Nat), offset < C → bytes.length ≤ C →
    (write_circular mem begin C offset bytes).2
      = (if offset + bytes.length < C then offset + bytes.length
         else offset + bytes.length - C) ∧
    ∀ a, (write_circular mem begin C offset bytes).1 a =
      if begin ≤ a ∧ a < begin + C ∧
          (if begin + offset ≤ a then a - (begin + offset) else a + C - (begin + offset))
            < bytes.length then
        bytes.getD (if begin + offset ≤ a then a - (begin + offset)
          else a + C - (begin + offset)) 0
      else mem a := by
  induction bytes with
  | nil =>
    intro mem offset ho _
    simp [write_circular, ho]
  | cons x bytes ih =>
    intro mem offset ho hl
    simp only [List.length_cons] at hl
    have hmod : (offset + 1) % C = if offset + 1 < C then offset + 1 else 0 := by
      split_ifs with h
      · exact Nat.mod_eq_of_lt h
      · have : offset + 1 = C := by omega
        rw [this, Nat.mod_self]
    have ho2 : (offset + 1) % C < C := Nat.mod_lt _ hC
    obtain ⟨i1, i2⟩ := ih (fun a => if a = begin + offset then x else mem a)
      ((offset + 1) % C) ho2 (by omega)
    simp only [write_circular, List.length_cons]
    refine ⟨?_, ?_⟩
    · rw [i1, hmod]; split_ifs <;> omega
    · intro a
      rw [i2 a, hmod]
      by_cases ha : a = begin + offset
      · subst ha
        simp only [le_refl, Nat.sub_self, if_true, List.getD_cons_zero]
        rw [if_neg (by split_ifs <;> omega), if_pos (by omega)]
      · simp only [if_neg ha]
        by_cases hin : begin ≤ a ∧ a < begin + C
        · obtain ⟨n, hn⟩ : ∃ n, (if begin + offset ≤ a then a - (begin + offset)
              else a + C - (begin + offset)) = n + 1 :=
            ⟨(if begin + offset ≤ a then a - (begin + offset)
              else a + C - (begin + offset)) - 1, by split_ifs <;> omega⟩
          have hn2 : (if begin + (if offset + 1 < C then offset + 1 else 0) ≤ a then
              a - (begin + (if offset + 1 < C then offset + 1 else 0))
              else a + C - (begin + (if offset + 1 < C then offset + 1 else 0))) = n := by
            split_ifs at hn ⊢ <;> omega
          rw [hn, hn2, List.getD_cons_succ]
          by_cases hlt : n < bytes.length
          · rw [if_pos ⟨hin.1, hin.2, hlt⟩, if_pos ⟨hin.1, hin.2, by omega⟩]
          · rw [if_neg (by omega), if_neg (by omega)]
        · rw [if_neg (by omega), if_neg (by omega)]

theorem empty_inv (s : rbctx_t) (hC : 1 ≤ capacity s) (hcap : capacity s < SIZE_T_MOD)
    (hr1 : s.begin ≤ s.read) (hr2 : s.read < s.end_) (hempty : s.read = s.write) :
    Inv s [] := by
  simp only [capacity] at *
  refine ⟨hcap, hr1, hr2, ?_, ?_, ?_⟩
  · simp only [encode, List.length_nil, capacity]; omega
  · simp only [encode, List.length_nil, circ, Nat.add_zero, if_pos hr2]
    exact hempty.symm
  · intro k hk; simp [encode] at hk

/-! ## Status of one call under the invariant -/

theorem write_status (s : rbctx_t) (q : List (List Byte)) (h : Inv s q) (message : Mem)
    (message_len : Nat) (hlen : message_len + sizeof_size_t < SIZE_T_MOD) :
    ((ringbuffer_write s message message_len).status = Status.RINGBUFFER_FULL ↔
      free_bytes s < sizeof_size_t + message_len) ∧
    ((ringbuffer_write s message message_len).status = Status.SUCCESS ↔
      sizeof_size_t + message_len ≤ free_bytes s) := by
  have hc := inv_cursors s q h
  by_cases hfit : sizeof_size_t + message_len ≤ free_bytes s
  · rw [write_ok s _ _ hc hlen hfit]
    simp only [reduceCtorEq, false_iff, true_iff, not_lt]
    exact ⟨hfit, hfit⟩
  · rw [write_full s _ _ hc hlen (by omega)]
    simp only [reduceCtorEq, false_iff, true_iff]
    exact ⟨by omega, hfit⟩

theorem write_full_only_if (s : rbctx_t) (message : Mem) (message_len : Nat)
    (h : (ringbuffer_write s message message_len).status = Status.RINGBUFFER_FULL) :
    write_space_free s < sizeof_size_t + message_len ∧
    (ringbuffer_write s message message_len).context = s := by
  unfold ringbuffer_write at h ⊢
  by_cases hf : size_t_add message_len sizeof_size_t > write_space_free s
  · simp only [if_pos hf, and_true]
    have : size_t_add message_len sizeof_size_t ≤ message_len + sizeof_size_t :=
      Nat.mod_le _ _
    omega
  · simp only [if_neg hf] at h
    split_ifs at h

theorem read_status (s : rbctx_t) (m : List Byte) (q : List (List Byte))
    (h : Inv s (m :: q)) (buffer : Mem) (buffer_len : Nat) :
    (buffer_len < m.length →
      ringbuffer_read s buffer buffer_len
        = ⟨Status.OUTPUT_BUFFER_TOO_SMALL, s, buffer, buffer_len⟩) ∧
    (m.length ≤ buffer_len →
      ringbuffer_read s buffer buffer_len
        = ⟨Status.SUCCESS, { s with read := circ s s.read (sizeof_size_t + m.length) },
            out_mem s buffer m.length, m.length⟩) := by
  obtain ⟨g1, g2, g3⟩ := inv_head _ m q h
  have hne := fun e => List.cons_ne_nil m q ((inv_empty_iff _ _ h).1 e)
  exact ⟨read_small _ _ _ m.length h.cap_lt h.read_ge h.read_lt hne g1 g2,
    read_ok _ _ _ m.length h.cap_lt h.read_ge h.read_lt hne g1 g2⟩

theorem one_frame_state_reachable : Reachable one_frame_state [[1, 2, 3]] :=
  ⟨blank_context, 4096, 24, [Call.write [1, 2, 3]], by decide, by decide, by decide, by decide, rfl,
    by decide⟩

theorem drained_state_reachable : Reachable drained_state [] :=
  ⟨blank_context, 4096, 24, [Call.write [1, 2, 3], Call.read 8], by decide, by decide, by decide,
    by decide, rfl, by decide⟩

theorem run_append (r : Run) (calls : List Call) (c : Call) :
    run r (calls ++ [c]) = step (run r calls) c := by
  simp [run, List.foldl_append]

theorem reachable_step (s : rbctx_t) (q : List (List Byte)) (h : Reachable s q) (c : Call)
    (hc : valid_call c) (log : List Obs) (written delivered : List (List Byte)) :
    Reachable (step ⟨s, log, written, delivered⟩ c).context
      (fifo_step (capacity s) q c).2 := by
  obtain ⟨c0, loc, size, calls, hloc, h1, h2, hv, rfl, rfl⟩ := h
  obtain ⟨hs, -⟩ := sim_run loc size calls _ _ (sim_start c0 loc size hloc h1 h2) hv
  rw [sim_pending loc size _ _ hs, sim_capacity loc size _ _ hs]
  obtain ⟨hs2, -⟩ := sim_step loc size _ _ c hs hc
  refine ⟨c0, loc, size, calls ++ [c], hloc, h1, h2, ?_, ?_, ?_⟩
  · intro x hx
    rcases List.mem_append.1 hx with hx | hx
    · exact hv x hx
    · rw [List.mem_singleton.1 hx]; exact hc
  · rw [run_append]; cases c <;> rfl
  · rw [run_append, sim_pending loc size _ _ hs2]

theorem reachable_write (s : rbctx_t) (q : List (List Byte)) (h : Reachable s q)
    (m : List Byte) (hlen : m.length + sizeof_size_t < SIZE_T_MOD)
    (hok : (ringbuffer_write s (ptr m) m.length).status = Status.SUCCESS) :
    Reachable (ringbuffer_write s (ptr m) m.length).context (q ++ [m]) := by
  obtain ⟨hinv, hC⟩ := reachable_sim s q h
  have hfit := (write_status s q hinv (ptr m) m.length hlen).2.1 hok
  have := reachable_step s q h (Call.write m) hlen [] [] []
  rw [inv_free s q hinv, encode_length] at hfit
  have h8 : sizeof_size_t = 8 := rfl
  simp only [step, fifo_step] at this
  rwa [if_pos (by omega)] at this

/-! ## The frame laid out by a write -/

theorem frame_mem_at (s : rbctx_t) (hc : Cursors s) (message : Mem) (message_len k : Nat)
    (hfit : sizeof_size_t + message_len ≤ free_bytes s) (hk : k < sizeof_size_t + message_len) :
    frame_mem s message message_len (circ s s.write k)
      = if k < sizeof_size_t then size_t_bytes message_len k else message (k - sizeof_size_t) := by
  have hlt := free_bytes_lt s hc
  obtain ⟨h1, h2, h3, h4, h5⟩ := hc
  have hd : dist s (circ s s.write k) = k := by
    simp only [dist, circ, capacity] at *
    split_ifs <;> omega
  have hin : s.begin ≤ circ s s.write k ∧ circ s s.write k < s.end_ := by
    simp only [circ, capacity] at *
    split_ifs <;> omega
  unfold frame_mem
  simp only [hd]
  rw [if_pos ⟨hin.1, hin.2, hk⟩]

theorem frame_mem_other (s : rbctx_t) (hc : Cursors s) (message : Mem) (message_len a : Nat)
    (hfit : sizeof_size_t + message_len ≤ free_bytes s)
    (ha : ∀ k, k < sizeof_size_t + message_len → a ≠ circ s s.write k) :
    frame_mem s message message_len a = s.mem a := by
  have hlt := free_bytes_lt s hc
  obtain ⟨h1, h2, h3, h4, h5⟩ := hc
  unfold frame_mem
  rw [if_neg]
  rintro ⟨g1, g2, g3⟩
  apply ha (dist s a) g3
  simp only [dist, circ, capacity] at *
  split_ifs at g3 ⊢ <;> omega

theorem write_circular_wrap (begin C : Nat) (hC : 0 < C) (bytes : List Byte) (mem : Mem)
    (offset : Nat) (ho : offset < C) (hl : bytes.length ≤ C) :
    (write_circular mem begin C offset bytes).2 = wrap_add C offset bytes.length ∧
    ∀ a, (write_circular mem begin C offset bytes).1 a =
      if begin ≤ a ∧ a < begin + C ∧ wrap_dist begin C offset a < bytes.length then
        bytes.getD (wrap_dist begin C offset a) 0
      else mem a :=
  write_circular_spec begin C hC bytes mem offset ho hl

theorem wrap_dist_cases (begin C offset a : Nat) (ha : begin ≤ a) (ho : offset ≤ C) :
    (begin + offset ≤ a ∧ wrap_dist begin C offset a + (begin + offset) = a) ∨
    (a < begin + offset ∧ wrap_dist begin C offset a + (begin + offset) = a + C) := by
  unfold wrap_dist
  split_ifs <;> omega

theorem wrap_add_cases (C offset n : Nat) :
    (offset + n < C ∧ wrap_add C offset n = offset + n) ∨
    (C ≤ offset + n ∧ wrap_add C offset n + C = offset + n) := by
  unfold wrap_add
  split_ifs <;> omega

theorem dist_cases (s : rbctx_t) (a : Nat) (ha : s.begin ≤ a) (hw : s.write ≤ s.end_) :
    (s.write ≤ a ∧ dist s a + s.write = a) ∨
    (a < s.write ∧ dist s a + s.write + s.begin = a + s.end_) := by
  unfold dist capacity
  split_ifs <;> omega

theorem mem_read_getD_ite (src : Mem) (a n k : Nat) (d : Byte) :
    (mem_read src a n).getD k d = if k < n then src (a + k) else d := by
  split_ifs with h
  · exact mem_read_getD src a n k d h
  · exact List.getD_eq_default _ _ (by rw [mem_read_length]; omega)

theorem frame_mem_eq_write_circular (s : rbctx_t) (hc : Cursors s) (m : List Byte)
    (hfit : sizeof_size_t + m.length ≤ free_bytes s) :
    frame_mem s (ptr m) m.length
      = (write_circular
          (write_circular s.mem s.begin (capacity s) (write_offset s)
            (mem_read (size_t_bytes m.length) 0 sizeof_size_t)).1
          s.begin (capacity s)
          (write_circular s.mem s.begin (capacity s) (write_offset s)
            (mem_read (size_t_bytes m.length) 0 sizeof_size_t)).2 m).1 ∧
    circ s s.write (sizeof_size_t + m.length)
      = s.begin + (write_circular
          (write_circular s.mem s.begin (capacity s) (write_offset s)
            (mem_read (size_t_bytes m.length) 0 sizeof_size_t)).1
          s.begin (capacity s)
          (write_circular s.mem s.begin (capacity s) (write_offset s)
            (mem_read (size_t_bytes m.length) 0 sizeof_size_t)).2 m).2 := by
  have hlt := free_bytes_lt s hc
  obtain ⟨h1, h2, h3, h4, h5⟩ := hc
  have h8 : sizeof_size_t = 8 := rfl
  have hcap : capacity s + s.begin = s.end_ := by simp only [capacity]; omega
  have hwo2 : write_offset s + s.begin = s.write := by simp only [write_offset]; omega
  have hC : 0 < capacity s := by omega
  have hwo : write_offset s < capacity s := by omega
  have hlen : 8 + m.length < capacity s := by omega
  have hpl : (mem_read (size_t_bytes m.length) 0 sizeof_size_t).length = sizeof_size_t :=
    mem_read_length _ _ _
  obtain ⟨a1, a2⟩ := write_circular_wrap s.begin (capacity s) hC
    (mem_read (size_t_bytes m.length) 0 sizeof_size_t) s.mem (write_offset s) hwo
    (by rw [hpl]; omega)
  rw [hpl] at a1 a2
  have F4 := wrap_add_cases (capacity s) (write_offset s) sizeof_size_t
  have ho2 : wrap_add (capacity s) (write_offset s) sizeof_size_t < capacity s := by omega
  rw [a1]
  obtain ⟨b1, b2⟩ := write_circular_wrap s.begin (capacity s) hC m
    (write_circular s.mem s.begin (capacity s) (write_offset s)
      (mem_read (size_t_bytes m.length) 0 sizeof_size_t)).1 _ ho2 (by omega)
  refine ⟨?_, ?_⟩
  · funext a
    rw [b2 a, a2 a]
    clear a1 a2 b1 b2 hpl hfit hlt h1 h2 h3
    simp only [frame_mem, mem_read_getD_ite, ptr, Nat.zero_add]
    by_cases hin : s.begin ≤ a
    swap
    · rw [if_neg (fun h => hin h.1), if_neg (fun h => hin h.1), if_neg (fun h => hin h.1)]
    have F1 := dist_cases s a hin h5.le
    have F2 := wrap_dist_cases s.begin (capacity s) (write_offset s) a hin hwo.le
    have F3 := wrap_dist_cases s.begin (capacity s)
      (wrap_add (capacity s) (write_offset s) sizeof_size_t) a hin ho2.le
    generalize wrap_dist s.begin (capacity s)
      (wrap_add (capacity s) (write_offset s) sizeof_size_t) a = D2 at F3 ⊢
    generalize wrap_dist s.begin (capacity s) (write_offset s) a = D1 at F2 ⊢
    generalize dist s a = D at F1 ⊢
    generalize wrap_add (capacity s) (write_offset s) sizeof_size_t = o2 at F3 F4 ho2
    generalize write_offset s = wo at *
    generalize capacity s = C at *
    generalize sizeof_size_t = w8 at *
    subst h8
    split_ifs <;> first | (exfalso; omega) | (congr 1; omega) | (with_reducible rfl)
  · rw [b1]
    clear a1 a2 b1 b2 hpl hfit hlt h1 h2 h3
    have F5 := wrap_add_cases (capacity s)
      (wrap_add (capacity s) (write_offset s) sizeof_size_t) m.length
    simp only [circ]
    generalize wrap_add (capacity s)
      (wrap_add (capacity s) (write_offset s) sizeof_size_t) m.length = o3 at F5 ⊢
    generalize wrap_add (capacity s) (write_offset s) sizeof_size_t = o2 at F4 F5 ho2
    generalize write_offset s = wo at *
    generalize capacity s = C at *
    generalize sizeof_size_t = w8 at *
    subst h8
    split_ifs <;> omega

theorem offset14_state_reachable : Reachable offset14_state [] :=
  ⟨blank_context, 4096, 24, [Call.write [1, 2, 3, 4, 5, 6], Call.read 8], by decide, by decide,
    by decide, by decide, rfl, by decide⟩

/-! ## Cursors after one call -/

theorem fresh_state_reachable : Reachable fresh_state [] :=
  ⟨blank_context, 4096, 24, [], by decide, by decide, by decide, by decide, rfl, by decide⟩

theorem read_cursors (s : rbctx_t) (q : List (List Byte)) (h : Inv s q) (buffer : Mem)
    (buffer_len : Nat) : Cursors (ringbuffer_read s buffer buffer_len).context := by
  cases q with
  | nil =>
    rw [read_empty s _ _ ((inv_empty_iff s [] h).2 rfl)]
    exact inv_cursors s [] h
  | cons m q =>
    obtain ⟨hsmall, hbig⟩ := read_status s m q h buffer buffer_len
    by_cases hs : buffer_len < m.length
    · rw [hsmall hs]
      exact inv_cursors s _ h
    · rw [hbig (by omega)]
      exact inv_cursors _ q (inv_read s m q h)

theorem write_cursors (s : rbctx_t) (hc : Cursors s) (message : Mem) (message_len : Nat) :
    Cursors (ringbuffer_write s message message_len).context := by
  obtain ⟨g1, g2, g3⟩ := write_cursor s message message_len hc
  have hlt := free_bytes_lt s hc
  by_cases hfit : size_t_add message_len sizeof_size_t ≤ free_bytes s
  · obtain ⟨k1, k2, k3, k4⟩ := g3 (g2.2 hfit)
    obtain ⟨h1, h2, h3, h4, h5⟩ := hc
    refine ⟨?_, ?_, ?_, ?_, ?_⟩
    · rw [k3, k4]; exact h1
    · rw [k3, k2]; exact h2
    · rw [k4, k2]; exact h3
    · rw [k1, k3]; simp only [circ, capacity] at *; split_ifs <;> omega
    · rw [k1, k4]; simp only [circ, capacity] at *; split_ifs <;> omega
  · rw [(write_full_only_if s message message_len (g1.2 (by omega))).2]
    exact hc

/-! ## Lists read from memory -/

theorem mem_read_ptr (m : List Byte) : mem_read (ptr m) 0 m.length = m := by
  apply List.ext_getElem (by rw [mem_read_length])
  intro i h1 h2
  simp [mem_read, ptr, List.getD_eq_getElem?_getD, List.getElem?_eq_getElem h2]

theorem mem_read_congr (m1 m2 : Mem) (a1 a2 n : Nat)
    (h : ∀ i, i < n → m1 (a1 + i) = m2 (a2 + i)) : mem_read m1 a1 n = mem_read m2 a2 n := by
  apply List.ext_getElem (by rw [mem_read_length, mem_read_length])
  intro i h1 h2
  rw [mem_read_length] at h1
  have e1 := mem_read_getD m1 a1 n i 0 h1
  have e2 := mem_read_getD m2 a2 n i 0 h1
  rw [List.getD_eq_getElem _ _ (by rw [mem_read_length]; exact h1)] at e1 e2
  rw [e1, e2, h i h1]

theorem mem_read_append (m : Mem) (a n k : Nat) :
    mem_read m a (n + k) = mem_read m a n ++ mem_read m (a + n) k := by
  apply List.ext_getElem (by simp [mem_read_length])
  intro i h1 h2
  rw [mem_read_length] at h1
  have e1 := mem_read_getD m a (n + k) i 0 h1
  rw [List.getD_eq_getElem _ _ (by rw [mem_read_length]; exact h1)] at e1
  rw [e1]
  by_cases hi : i < n
  · rw [List.getElem_append_left (by rw [mem_read_length]; exact hi)]
    have e2 := mem_read_getD m a n i 0 hi
    rw [List.getD_eq_getElem _ _ (by rw [mem_read_length]; exact hi)] at e2
    rw [e2]
  · rw [List.getElem_append_right (by rw [mem_read_length]; omega)]
    have e2 := mem_read_getD m (a + n) k (i - n) 0 (by omega)
    rw [List.getD_eq_getElem _ _ (by rw [mem_read_length]; omega)] at e2
    simp only [mem_read_length]
    rw [e2]
    congr 1
    omega

theorem mem_read_eq_point (m1 m2 : Mem) (a1 a2 n : Nat)
    (h : mem_read m1 a1 n = mem_read m2 a2 n) (i : Nat) (hi : i < n) :
    m1 (a1 + i) = m2 (a2 + i) := by
  rw [← mem_read_getD m1 a1 n i 0 hi, h, mem_read_getD m2 a2 n i 0 hi]

theorem mem_read_point (m : Mem) (a n i : Nat) (l : List Byte) (h : mem_read m a n = l)
    (hi : i < n) : m (a + i) = l.getD i 0 := by
  rw [← h, mem_read_getD m a n i 0 hi]

/-! ## The frames of the daemon -/

theorem tagged_length (f t p : Nat) (chunk : List Byte) :
    (tagged f t p chunk).length = chunk.length + 3 * sizeof_size_t := by
  simp only [tagged, List.length_append, mem_read_length]
  omega

theorem write_packets_frame_spec (buf : Mem) (f t p : Nat) (chunk : List Byte)
    (hlen : chunk.length + 3 * sizeof_size_t < SIZE_T_MOD) :
    (write_packets_frame buf f t p chunk).2 = chunk.length + 3 * sizeof_size_t ∧
    mem_read (write_packets_frame buf f t p chunk).1 0 (chunk.length + 3 * sizeof_size_t)
      = tagged f t p chunk := by
  have h8 : sizeof_size_t = 8 := rfl
  refine ⟨size_t_add_eq _ _ hlen, ?_⟩
  have e : chunk.length + 3 * sizeof_size_t
      = sizeof_size_t + sizeof_size_t + sizeof_size_t + chunk.length := by omega
  have e1 : mem_read (write_packets_frame buf f t p chunk).1 0 sizeof_size_t
      = mem_read (size_t_bytes f) 0 sizeof_size_t := by
    apply mem_read_congr
    intro i hi
    simp only [write_packets_frame, memcpy, h8] at *
    split_ifs <;> first | (exfalso; omega) | (congr 1; omega)
  have e2 : mem_read (write_packets_frame buf f t p chunk).1 (0 + sizeof_size_t) sizeof_size_t
      = mem_read (size_t_bytes t) 0 sizeof_size_t := by
    apply mem_read_congr
    intro i hi
    simp only [write_packets_frame, memcpy, h8] at *
    split_ifs <;> first | (exfalso; omega) | (congr 1; omega)
  have e3 : mem_read (write_packets_frame buf f t p chunk).1
      (0 + (sizeof_size_t + sizeof_size_t)) sizeof_size_t
      = mem_read (size_t_bytes p) 0 sizeof_size_t := by
    apply mem_read_congr
    intro i hi
    simp only [write_packets_frame, memcpy, h8] at *
    split_ifs <;> first | (exfalso; omega) | (congr 1; omega)
  have e4 : mem_read (write_packets_frame buf f t p chunk).1
      (0 + (sizeof_size_t + sizeof_size_t + sizeof_size_t)) chunk.length = chunk := by
    conv_rhs => rw [← mem_read_ptr chunk]
    apply mem_read_congr
    intro i hi
    simp only [write_packets_frame, memcpy, h8] at *
    split_ifs <;> first | (exfalso; omega) | (congr 1; omega)
  rw [e, mem_read_append, mem_read_append, mem_read_append, e1, e2, e3, e4]
  rfl

theorem decode_tagged (buffer : Mem) (f t p : Nat) (chunk : List Byte)
    (hf : f < SIZE_T_MOD) (ht : t < SIZE_T_MOD) (hp : p < SIZE_T_MOD)
    (hb : mem_read buffer 0 (chunk.length + 3 * sizeof_size_t) = tagged f t p chunk) :
    decoded_from buffer = f ∧ decoded_to buffer = t ∧ decoded_packet_id buffer = p ∧
    mem_read buffer (3 * sizeof_size_t) chunk.length = chunk := by
  have h8 : sizeof_size_t = 8 := rfl
  have e : chunk.length + 3 * sizeof_size_t
      = sizeof_size_t + sizeof_size_t + sizeof_size_t + chunk.length := by omega
  rw [e, mem_read_append, mem_read_append, mem_read_append] at hb
  unfold tagged at hb
  have l1 := List.append_inj_left hb (by simp [mem_read_length])
  have r1 := List.append_inj_right hb (by simp [mem_read_length])
  have l2 := List.append_inj_left l1 (by simp [mem_read_length])
  have r2 := List.append_inj_right l1 (by simp [mem_read_length])
  have l3 := List.append_inj_left l2 (by simp [mem_read_length])
  have r3 := List.append_inj_right l2 (by simp [mem_read_length])
  refine ⟨?_, ?_, ?_, ?_⟩
  · apply load_size_t_bytes _ _ hf
    intro i hi
    have := mem_read_eq_point _ _ _ _ _ l3 i hi
    simp only [memcpy, decoded_from]
    rw [if_pos ⟨Nat.zero_le _, by omega⟩]
    simp only [Nat.zero_add, Nat.sub_zero] at this ⊢
    exact this
  · apply load_size_t_bytes _ _ ht
    intro i hi
    have := mem_read_eq_point _ _ _ _ _ r3 i hi
    simp only [memcpy, decoded_to]
    rw [if_pos ⟨Nat.zero_le _, by omega⟩]
    simp only [Nat.zero_add, Nat.sub_zero] at this ⊢
    exact this
  · apply load_size_t_bytes _ _ hp
    intro i hi
    have := mem_read_eq_point _ _ _ _ _ r2 i hi
    simp only [memcpy, decoded_packet_id]
    rw [if_pos ⟨Nat.zero_le _, by omega⟩]
    simp only [Nat.zero_add, Nat.sub_zero, Nat.two_mul] at this ⊢
    exact this
  · have e3 : 3 * sizeof_size_t = 0 + (sizeof_size_t + sizeof_size_t + sizeof_size_t) := by
      omega
    rw [e3]
    exact r1

theorem write_packets_loop_spec (MESSAGE_SIZE f t : Nat) (h24 : 3 * sizeof_size_t < MESSAGE_SIZE)
    (hM : MESSAGE_SIZE < SIZE_T_MOD) :
    ∀ (fuel : Nat) (file : List Byte) (packet_id : Nat) (buf : Mem),
      file.length < fuel → packet_id + file.length < SIZE_T_MOD →
      file.length ≤ (write_packets_loop MESSAGE_SIZE f t fuel file packet_id buf).length
        * (MESSAGE_SIZE - 3 * sizeof_size_t) ∧
      ∀ (k : Nat) (fr : Mem × Nat),
        (write_packets_loop MESSAGE_SIZE f t fuel file packet_id buf)[k]? = some fr →
        (file.drop (k * (MESSAGE_SIZE - 3 * sizeof_size_t))).take
            (MESSAGE_SIZE - 3 * sizeof_size_t) ≠ [] ∧
        fr.2 = ((file.drop (k * (MESSAGE_SIZE - 3 * sizeof_size_t))).take
            (MESSAGE_SIZE - 3 * sizeof_size_t)).length + 3 * sizeof_size_t ∧
        mem_read fr.1 0 fr.2 = tagged f t (packet_id + k)
          ((file.drop (k * (MESSAGE_SIZE - 3 * sizeof_size_t))).take
            (MESSAGE_SIZE - 3 * sizeof_size_t)) := by
  have h8 : sizeof_size_t = 8 := rfl
  have hn : size_t_sub MESSAGE_SIZE (3 * sizeof_size_t) = MESSAGE_SIZE - 3 * sizeof_size_t :=
    size_t_sub_eq _ _ (by omega) hM
  have hpos : 0 < MESSAGE_SIZE - 3 * sizeof_size_t := by omega
  generalize hN : MESSAGE_SIZE - 3 * sizeof_size_t = n at hn hpos
  intro fuel
  induction fuel with
  | zero => intro file _ _ h; omega
  | succ fuel ih =>
    intro file packet_id buf hfuel hid
    simp only [write_packets_loop, hn]
    by_cases hc : (file.take n).length > 0
    · have hfile : 0 < file.length := by
        cases file with
        | nil => simp at hc
        | cons _ _ => simp
      have hdrop : (file.drop n).length = file.length - n := List.length_drop _ _
      have htake : (file.take n).length ≤ n := List.length_take_le _ _
      have hid1 : size_t_add packet_id 1 = packet_id + 1 := size_t_add_eq _ _ (by omega)
      obtain ⟨i1, i2⟩ := ih (file.drop n) (size_t_add packet_id 1)
        (write_packets_frame buf f t packet_id (file.take n)).1 (by omega) (by omega)
      have hchunk : (file.take n).length + 3 * sizeof_size_t < SIZE_T_MOD := by omega
      obtain ⟨s1, s2⟩ := write_packets_frame_spec buf f t packet_id (file.take n) hchunk
      rw [if_pos hc]
      refine ⟨?_, ?_⟩
      · simp only [List.length_cons, Nat.succ_mul]
        omega
      · intro k fr hk
        cases k with
        | zero =>
          simp only [List.getElem?_cons_zero, Option.some.injEq] at hk
          subst hk
          simp only [Nat.zero_mul, List.drop_zero, Nat.add_zero]
          refine ⟨?_, s1, ?_⟩
          · intro e; rw [e] at hc; simp at hc
          · rw [s1]; exact s2
        | succ k =>
          simp only [List.getElem?_cons_succ] at hk
          obtain ⟨j1, j2, j3⟩ := i2 k fr hk
          have e : List.drop ((k + 1) * n) file = List.drop (k * n) (List.drop n file) := by
            rw [List.drop_drop, Nat.succ_mul, Nat.add_comm]
          rw [e]
          refine ⟨j1, j2, ?_⟩
          rw [j3, hid1]
          congr 1
          omega
    · rw [if_neg hc]
      have : file.length = 0 := by
        cases file with
        | nil => rfl
        | cons a l =>
          exfalso; apply hc
          simp only [List.take_succ_cons, List.length_take, List.length_cons]
          cases n with
          | zero => omega
          | succ n => simp
      refine ⟨by simp [this], ?_⟩
      intro k fr hk
      simp at hk

/-! ## The string functions of `process_packets` -/

theorem c_string_spec (mem : Mem) (l : List Byte) :
    ∀ (fuel p : Nat), l.length < fuel → mem_read mem p l.length = l →
      mem (p + l.length) = 0 →
      c_string mem fuel p = l.takeWhile (fun b => b ≠ 0) := by
  induction l with
  | nil =>
    intro fuel p hf _ hz
    cases fuel with
    | zero => simp at hf
    | succ fuel =>
      simp only [List.length_nil, Nat.add_zero] at hz
      simp [c_string, hz]
  | cons x l ih =>
    intro fuel p hf hl hz
    cases fuel with
    | zero => simp at hf
    | succ fuel =>
      simp only [List.length_cons] at hf hl hz
      have hx : mem p = x := by
        have := mem_read_point mem p (l.length + 1) 0 (x :: l) hl (by omega)
        simpa using this
      have hrest : mem_read mem (p + 1) l.length = l := by
        rw [Nat.add_comm l.length 1, mem_read_append] at hl
        have hl2 : mem_read mem p 1 ++ mem_read mem (p + 1) l.length = [x] ++ l := hl
        exact List.append_inj_right hl2 (by simp [mem_read_length])
      simp only [c_string, hx]
      by_cases hx0 : x = 0
      · simp [hx0]
      · have := ih fuel (p + 1) (by omega) hrest (by rw [← hz]; congr 1; omega)
        simp [hx0, this]

theorem terminator_index_eq (len : Nat) (h1 : 3 * sizeof_size_t < len) (h2 : len < SIZE_T_MOD) :
    terminator_index len = len := by
  have h8 : sizeof_size_t = 8 := rfl
  unfold terminator_index
  rw [if_pos h1, size_t_sub_eq _ _ (by omega) h2]
  omega

theorem sprintf_filename_eq (to_ : Nat) (h : to_ < 10 ^ 15) :
    sprintf_filename to_ = some (Nat.repr to_ ++ ".txt") := by
  have hl := Nat.repr_length to_ 15 (by decide) h
  unfold sprintf_filename
  rw [if_pos]
  rw [String.length_append]
  have : (".txt" : String).length = 4 := by decide
  omega

theorem handle_frame_events (MESSAGE_SIZE : Nat) (buffer : Mem) (len : Nat) (fopen_ok : Bool) :
    (handle_frame MESSAGE_SIZE buffer len fopen_ok).1
      = store_byte buffer (terminator_index len) 0 ∧
    (handle_frame MESSAGE_SIZE buffer len fopen_ok).2 =
      if port_rule (decoded_from buffer) (decoded_to buffer) = true ∨
          scan_malicious (store_byte buffer (terminator_index len) 0) MESSAGE_SIZE
            (3 * sizeof_size_t) 0 = true then
        [Event.printf]
      else
        match sprintf_filename (decoded_to buffer) with
        | none => [Event.printf, Event.sprintf_overflow]
        | some filename =>
          [Event.printf, Event.mutex_lock, Event.fopen filename]
          ++ (if fopen_ok then
                [Event.fwrite (c_string (store_byte buffer (terminator_index len) 0)
                  MESSAGE_SIZE (3 * sizeof_size_t)), Event.fclose]
              else [])
          ++ [Event.mutex_unlock, Event.testcancel] := by
  unfold handle_frame
  simp only []
  by_cases h1 : port_rule (decoded_from buffer) (decoded_to buffer) = true
  · simp [h1]
  · by_cases h2 : scan_malicious (store_byte buffer (terminator_index len) 0) MESSAGE_SIZE
        (3 * sizeof_size_t) 0 = true
    · simp [h1, h2]
    · cases hs : sprintf_filename (decoded_to buffer) <;> simp [h1, h2]

theorem handle_frame_accepts (MESSAGE_SIZE : Nat) (buffer : Mem) (len : Nat) (fopen_ok : Bool)
    (hto : decoded_to buffer < 10 ^ 15) :
    Event.mutex_lock ∈ (handle_frame MESSAGE_SIZE buffer len fopen_ok).2 ↔
      ¬ (port_rule (decoded_from buffer) (decoded_to buffer) = true ∨
          scan_malicious (store_byte buffer (terminator_index len) 0) MESSAGE_SIZE
            (3 * sizeof_size_t) 0 = true) := by
  rw [(handle_frame_events MESSAGE_SIZE buffer len fopen_ok).2]
  by_cases h : port_rule (decoded_from buffer) (decoded_to buffer) = true ∨
      scan_malicious (store_byte buffer (terminator_index len) 0) MESSAGE_SIZE
        (3 * sizeof_size_t) 0 = true
  · rw [if_pos h]
    simp [h]
  · rw [if_neg h, sprintf_filename_eq _ hto]
    simp only [h, not_false_eq_true, iff_true]
    simp

theorem delivered_text (MESSAGE_SIZE : Nat) (buffer : Mem) (f t p : Nat) (chunk : List Byte)
    (hpos : 0 < chunk.length) (hfit : chunk.length + 3 * sizeof_size_t ≤ MESSAGE_SIZE)
    (hM : MESSAGE_SIZE < SIZE_T_MOD)
    (hb : mem_read buffer 0 (chunk.length + 3 * sizeof_size_t) = tagged f t p chunk)
    (hf : f < SIZE_T_MOD) (ht : t < SIZE_T_MOD) (hp : p < SIZE_T_MOD) :
    terminator_index (chunk.length + 3 * sizeof_size_t) = chunk.length + 3 * sizeof_size_t ∧
    c_string (store_byte buffer (terminator_index (chunk.length + 3 * sizeof_size_t)) 0)
      MESSAGE_SIZE (3 * sizeof_size_t) = chunk.takeWhile (fun b => b ≠ 0) := by
  have h8 : sizeof_size_t = 8 := rfl
  have hti := terminator_index_eq (chunk.length + 3 * sizeof_size_t) (by omega) (by omega)
  obtain ⟨-, -, -, hmsg⟩ := decode_tagged buffer f t p chunk hf ht hp hb
  refine ⟨hti, ?_⟩
  rw [hti]
  apply c_string_spec _ chunk MESSAGE_SIZE (3 * sizeof_size_t) (by omega)
  · have e : mem_read (store_byte buffer (chunk.length + 3 * sizeof_size_t) 0)
        (3 * sizeof_size_t) chunk.length = mem_read buffer (3 * sizeof_size_t) chunk.length := by
      apply mem_read_congr
      intro i hi
      simp only [store_byte]
      rw [if_neg (by omega)]
    rw [e, hmsg]
  · simp only [store_byte]
    rw [if_pos (by omega)]

theorem arena_holding_reachable (payload : List Byte)
    (h : payload.length + sizeof_size_t ≤ 1023) :
    Reachable (arena_holding payload) [payload] := by
  have h8 : sizeof_size_t = 8 := rfl
  have hv : ∀ c ∈ [Call.write payload], valid_call c := by
    intro c hc
    rw [List.mem_singleton.1 hc]
    simp only [valid_call, SIZE_T_MOD]
    omega
  refine ⟨blank_context, 4096, 1024, [Call.write payload], by decide, by decide, by decide,
    hv, rfl, ?_⟩
  obtain ⟨hs, -⟩ := sim_run 4096 1024 [Call.write payload] _ _
    (sim_start blank_context 4096 1024 (by decide) (by decide) (by decide)) hv
  rw [sim_pending _ _ _ _ hs]
  simp only [fifo_run, fifo_step, fifo_used, List.map_nil, List.sum_nil, Nat.zero_add]
  rw [if_pos (by omega)]
  rfl

theorem pass_on_frame (MESSAGE_SIZE : Nat) (s : rbctx_t) (m : List Byte)
    (q : List (List Byte)) (h : Reachable s (m :: q)) (hfit : m.length ≤ MESSAGE_SIZE)
    (buffer : Mem) (fopen_ok : Bool) :
    mem_read (ringbuffer_read s buffer MESSAGE_SIZE).buffer 0 m.length = m ∧
    (process_packets_pass MESSAGE_SIZE s buffer fopen_ok).events
      = Event.ringbuffer_read ::
          (handle_frame MESSAGE_SIZE (ringbuffer_read s buffer MESSAGE_SIZE).buffer m.length
            fopen_ok).2 ∧
    (process_packets_pass MESSAGE_SIZE s buffer fopen_ok).buffer
      = (handle_frame MESSAGE_SIZE (ringbuffer_read s buffer MESSAGE_SIZE).buffer m.length
            fopen_ok).1 := by
  obtain ⟨hinv, -⟩ := reachable_sim s _ h
  have hrd := (read_status s m q hinv buffer MESSAGE_SIZE).2 hfit
  refine ⟨?_, ?_, ?_⟩
  · rw [hrd]
    exact inv_out s m q hinv buffer
  · unfold process_packets_pass
    simp only [hrd, if_true]
  · unfold process_packets_pass
    simp only [hrd, if_true]

theorem ports_valid_false_iff (MINIMUM_PORT MAXIMUM_PORT : Int)
    (connections : List connection_t) :
    ports_valid MINIMUM_PORT MAXIMUM_PORT connections = false ↔
      ∃ c ∈ connections, c.from_ < MINIMUM_PORT ∨ c.from_ > MAXIMUM_PORT ∨
        c.to_ < MINIMUM_PORT ∨ c.to_ > MAXIMUM_PORT := by
  induction connections with
  | nil => simp [ports_valid]
  | cons c cs ih =>
    simp only [ports_valid, List.mem_cons, exists_eq_or_imp]
    by_cases h : c.from_ > MAXIMUM_PORT ∨ c.to_ > MAXIMUM_PORT ∨
        c.from_ < MINIMUM_PORT ∨ c.to_ < MINIMUM_PORT
    · rw [if_pos h]
      simp only [true_iff]
      left
      rcases h with h | h | h | h
      · exact Or.inr (Or.inl h)
      · exact Or.inr (Or.inr (Or.inr h))
      · exact Or.inl h
      · exact Or.inr (Or.inr (Or.inl h))
    · rw [if_neg h, ih]
      constructor
      · intro h2; exact Or.inr h2
      · rintro (h2 | h2)
        · exfalso; apply h
          rcases h2 with h2 | h2 | h2 | h2
          · exact Or.inr (Or.inr (Or.inl h2))
          · exact Or.inl h2
          · exact Or.inr (Or.inr (Or.inr h2))
          · exact Or.inr (Or.inl h2)
        · exact h2

theorem to_size_t_lt (z : Int) : to_size_t z < SIZE_T_MOD := by
  unfold to_size_t
  have h1 := Int.emod_lt_of_pos z (show (0 : Int) < (SIZE_T_MOD : Int) by decide)
  have h2 := Int.emod_nonneg z (show (SIZE_T_MOD : Int) ≠ 0 by decide)
  omega

/-- C1: in every empty state reachable from `ringbuffer_init` with `1 ≤ C < 2 ^ 64`,
and more generally in every state with `read == write` at any offset of
`[0, C)` whatever the storage holds, writing a payload `m` with
`len(m) + sizeof(size_t) ≤ C - 1` returns `SUCCESS`, and the read that follows
with `*buffer_len ≥ len(m)` returns `SUCCESS`, sets `*buffer_len` to `len(m)`,
fills the buffer with the bytes of `m` and leaves the arena empty
(`read == write`). -/
theorem write_read_round_trip (s : rbctx_t) (m : List Byte) (buffer : Mem) (buffer_len : Nat)
    (hs : Reachable s [] ∨
      (1 ≤ capacity s ∧ capacity s < SIZE_T_MOD ∧ s.begin ≤ s.read ∧ s.read < s.end_ ∧
        s.read = s.write))
    (hm : m.length + sizeof_size_t ≤ capacity s - 1) (hb : m.length ≤ buffer_len) :
    (ringbuffer_write s (ptr m) m.length).status = Status.SUCCESS ∧
    (ringbuffer_read (ringbuffer_write s (ptr m) m.length).context buffer buffer_len).status
      = Status.SUCCESS ∧
    (ringbuffer_read (ringbuffer_write s (ptr m) m.length).context buffer buffer_len).buffer_len
      = m.length ∧
    mem_read
      (ringbuffer_read (ringbuffer_write s (ptr m) m.length).context buffer buffer_len).buffer
      0 m.length = m ∧
    (ringbuffer_read (ringbuffer_write s (ptr m) m.length).context buffer
      buffer_len).context.read
      = (ringbuffer_read (ringbuffer_write s (ptr m) m.length).context buffer
          buffer_len).context.write := by
  have hinv : Inv s [] := by
    rcases hs with hs | ⟨hC, hcap, hr1, hr2, hempty⟩
    · exact (reachable_sim s [] hs).1
    · exact empty_inv s hC hcap hr1 hr2 hempty
  have hcap : capacity s < SIZE_T_MOD := hinv.cap_lt
  have hfree := inv_free s [] hinv
  have hfit : sizeof_size_t + m.length ≤ free_bytes s := by
    rw [hfree]; simp only [encode, List.length_nil]; omega
  have hlen : m.length + sizeof_size_t < SIZE_T_MOD := by omega
  have hinv2 := inv_write s m [] hinv hfit
  rw [write_ok s _ _ (inv_cursors s [] hinv) hlen hfit]
  simp only [List.nil_append] at hinv2
  obtain ⟨g1, g2, g3⟩ := inv_head _ m [] hinv2
  have hne := fun e => List.cons_ne_nil m [] ((inv_empty_iff _ _ hinv2).1 e)
  rw [read_ok _ buffer buffer_len m.length hinv2.cap_lt hinv2.read_ge hinv2.read_lt hne g1 g2 hb]
  refine ⟨rfl, rfl, rfl, inv_out _ m [] hinv2 buffer, ?_⟩
  exact (inv_empty_iff _ _ (inv_read _ m [] hinv2)).2 rfl

/-- Witness of C1: on a 24-byte arena with both cursors at offset 20 the length
prefix straddles the end of the storage; on the reachable empty 24-byte arena
with both cursors at offset 14 the payload does. -/
theorem write_read_round_trip_witness :
    ((ringbuffer_write empty_at_20 (ptr [1, 2, 3]) 3).status = Status.SUCCESS ∧
      mem_read (ringbuffer_read (ringbuffer_write empty_at_20 (ptr [1, 2, 3]) 3).context
        uninit 3).buffer 0 3 = [1, 2, 3]) ∧
    (Reachable offset14_state [] ∧
      mem_read (ringbuffer_read (ringbuffer_write offset14_state (ptr [7, 8, 9]) 3).context
        uninit 3).buffer 0 3 = [7, 8, 9]) :=
  have h := write_read_round_trip empty_at_20 [1, 2, 3] uninit 3
    (Or.inr ⟨by decide, by decide, by decide, by decide, by decide⟩) (by decide) (by decide)
  have h2 := write_read_round_trip offset14_state [7, 8, 9] uninit 3
    (Or.inl offset14_state_reachable) (by decide) (by decide)
  ⟨⟨h.1, h.2.2.2.1⟩, offset14_state_reachable, h2.2.2.2.1⟩

/-- C2: from `ringbuffer_init` on a storage of `1 ≤ C < 2 ^ 64` bytes, for every
sequence of writes and reads whose payload lengths do not wrap when the prefix
size is added, the return codes and the read outputs are those of the abstract
bounded FIFO queue, and the `k`-th successful read delivers the payload of the
`k`-th successful write. -/
theorem fifo_refinement (context0 : rbctx_t) (buffer_location buffer_size : Nat)
    (calls : List Call) (hloc : buffer_location ≠ 0) (h1 : 1 ≤ buffer_size)
    (h2 : buffer_size < SIZE_T_MOD) (hv : ∀ c ∈ calls, valid_call c) :
    (run (start context0 buffer_location buffer_size) calls).log
      = (fifo_run buffer_size [] calls).1 ∧
    ∀ k, k < (run (start context0 buffer_location buffer_size) calls).delivered.length →
      (run (start context0 buffer_location buffer_size) calls).delivered[k]?
        = (run (start context0 buffer_location buffer_size) calls).written[k]? := by
  obtain ⟨hs, hl⟩ := sim_run buffer_location buffer_size calls _ _
    (sim_start context0 buffer_location buffer_size hloc h1 h2) hv
  refine ⟨by simpa [start] using hl, ?_⟩
  intro k hk
  rw [hs.written_eq, List.getElem?_append_left hk]

/-- Witness of C2: six calls on a 24-byte arena, among them a read into a
buffer that is too small and a read of the empty arena. -/
theorem fifo_refinement_witness :
    (run (start blank_context 4096 24) six_calls).log = (fifo_run 24 [] six_calls).1 ∧
    (run (start blank_context 4096 24) six_calls).delivered = [[1, 2, 3], [4, 5]] :=
  ⟨(fifo_refinement blank_context 4096 24 six_calls (by decide) (by decide) (by decide) (by decide)).1,
    by decide⟩

/-- C3: after every sequence of writes and reads from `ringbuffer_init` on a
storage of `1 ≤ C < 2 ^ 64` bytes (payload lengths such that
`len + sizeof(size_t)` is representable in `size_t`), the occupied span
`(write - read) mod C` is the sum of `len + sizeof(size_t)` over the frames
written and not yet read and is at most `C - 1`, and a write that returns
`SUCCESS` keeps the occupied span within `C - 1`: the `size_t` sum
`message_len + sizeof(size_t)` that the code forms fits in the free space for
every `message_len`, and this is the frame size `len + sizeof(size_t)` itself
when that is representable in `size_t`. -/
theorem capacity_invariant (context0 : rbctx_t) (buffer_location buffer_size : Nat)
    (calls : List Call) (hloc : buffer_location ≠ 0) (h1 : 1 ≤ buffer_size)
    (h2 : buffer_size < SIZE_T_MOD) (hv : ∀ c ∈ calls, valid_call c) :
    capacity (run (start context0 buffer_location buffer_size) calls).context = buffer_size ∧
    occupied (run (start context0 buffer_location buffer_size) calls).context
      = fifo_used (pending (run (start context0 buffer_location buffer_size) calls)) ∧
    occupied (run (start context0 buffer_location buffer_size) calls).context
      ≤ buffer_size - 1 ∧
    (∀ (message : Mem) (message_len : Nat),
      (ringbuffer_write (run (start context0 buffer_location buffer_size) calls).context
        message message_len).status = Status.SUCCESS →
      occupied (run (start context0 buffer_location buffer_size) calls).context
        + size_t_add message_len sizeof_size_t ≤ buffer_size - 1) ∧
    ∀ m : List Byte, m.length + sizeof_size_t < SIZE_T_MOD →
      (ringbuffer_write (run (start context0 buffer_location buffer_size) calls).context
        (ptr m) m.length).status = Status.SUCCESS →
      occupied (run (start context0 buffer_location buffer_size) calls).context
        + (m.length + sizeof_size_t) ≤ buffer_size - 1 := by
  obtain ⟨hs, -⟩ := sim_run buffer_location buffer_size calls _ _
    (sim_start context0 buffer_location buffer_size hloc h1 h2) hv
  have hcap := sim_capacity _ _ _ _ hs
  have hocc := inv_occupied _ _ hs.inv
  have hused := hs.inv.used_lt
  have hfree := inv_free _ _ hs.inv
  rw [sim_pending _ _ _ _ hs, hocc, ← encode_length]
  refine ⟨hcap, rfl, by omega, ?_, ?_⟩
  · intro message message_len hok
    have := (write_cursor _ message message_len (inv_cursors _ _ hs.inv)).2.1.1 hok
    omega
  · intro m hm hok
    have := (write_status _ _ hs.inv (ptr m) m.length hm).2.1 hok
    omega

/-- Witness of C3: a write, a read and a write on a 24-byte arena. -/
theorem capacity_invariant_witness :
    occupied (run (start blank_context 4096 24) three_calls).context
      = fifo_used (pending (run (start blank_context 4096 24) three_calls)) ∧
    occupied (run (start blank_context 4096 24) three_calls).context = 10 :=
  ⟨(capacity_invariant blank_context 4096 24 three_calls (by decide) (by decide) (by decide)
      (by decide)).2.1, by decide⟩

/-- C4: in a state reachable from `ringbuffer_init` with `1 ≤ C < 2 ^ 64`, the free
space that `ringbuffer_write` computes is `C - 1 - ((write - read) mod C)`; the
call returns `RINGBUFFER_FULL` if and only if the sum `message_len +
sizeof(size_t)`, as the code forms it in `size_t`, exceeds that free space, and
this sum is `sizeof(size_t) + message_len` itself whenever that is
representable in `size_t`; when the call returns `RINGBUFFER_FULL`, the context
(both cursors and every byte of memory) is unchanged. -/
theorem full_exact (s : rbctx_t) (q : List (List Byte)) (h : Reachable s q) (message : Mem)
    (message_len : Nat) :
    write_space_free s = capacity s - 1 - occupied s ∧
    ((ringbuffer_write s message message_len).status = Status.RINGBUFFER_FULL ↔
      capacity s - 1 - occupied s < size_t_add message_len sizeof_size_t) ∧
    (message_len + sizeof_size_t < SIZE_T_MOD →
      ((ringbuffer_write s message message_len).status = Status.RINGBUFFER_FULL ↔
        capacity s - 1 - occupied s < sizeof_size_t + message_len)) ∧
    ((ringbuffer_write s message message_len).status = Status.RINGBUFFER_FULL →
      (ringbuffer_write s message message_len).context = s) := by
  obtain ⟨hinv, -⟩ := reachable_sim s q h
  have hc := inv_cursors s q hinv
  have e1 : write_space_free s = capacity s - 1 - occupied s := by
    rw [write_space_free_eq s hc, inv_free s q hinv, inv_occupied s q hinv]
  have e2 : free_bytes s = capacity s - 1 - occupied s := by
    rw [← e1, write_space_free_eq s hc]
  refine ⟨e1, ?_, ?_, ?_⟩
  · rw [(write_cursor s message message_len hc).1, e2]
  · intro hlen
    rw [(write_cursor s message message_len hc).1, e2, size_t_add_eq _ _ hlen, Nat.add_comm]
  · intro hf
    exact (write_full_only_if s message message_len hf).2

/-- Witness of C4: an 18-byte payload offered to a 24-byte arena that holds an
11-byte frame. -/
theorem full_exact_witness :
    Reachable one_frame_state [[1, 2, 3]] ∧
    ((ringbuffer_write one_frame_state uninit 18).status = Status.RINGBUFFER_FULL ↔
      capacity one_frame_state - 1 - occupied one_frame_state < sizeof_size_t + 18) :=
  ⟨one_frame_state_reachable,
    (full_exact one_frame_state [[1, 2, 3]] one_frame_state_reachable uninit 18).2.2.1
      (by decide)⟩

/-- C5: in a reachable state whose oldest unread frame has payload `m`,
`ringbuffer_read` returns `OUTPUT_BUFFER_TOO_SMALL` if and only if `*buffer_len`
is strictly smaller than `len(m)`; it then leaves the context, the buffer and
`*buffer_len` unchanged, and a read that follows with `*buffer_len ≥ len(m)`
returns `SUCCESS` with the payload `m`. -/
theorem output_too_small_exact (s : rbctx_t) (m : List Byte) (q : List (List Byte))
    (h : Reachable s (m :: q)) (buffer : Mem) (buffer_len : Nat) :
    ((ringbuffer_read s buffer buffer_len).status = Status.OUTPUT_BUFFER_TOO_SMALL ↔
      buffer_len < m.length) ∧
    (buffer_len < m.length →
      ringbuffer_read s buffer buffer_len
        = ⟨Status.OUTPUT_BUFFER_TOO_SMALL, s, buffer, buffer_len⟩ ∧
      ∀ (buffer2 : Mem) (n : Nat), m.length ≤ n →
        (ringbuffer_read (ringbuffer_read s buffer buffer_len).context buffer2 n).status
          = Status.SUCCESS ∧
        (ringbuffer_read (ringbuffer_read s buffer buffer_len).context buffer2 n).buffer_len
          = m.length ∧
        mem_read
          (ringbuffer_read (ringbuffer_read s buffer buffer_len).context buffer2 n).buffer
          0 m.length = m) := by
  obtain ⟨hinv, -⟩ := reachable_sim s _ h
  obtain ⟨hsmall, hbig⟩ := read_status s m q hinv buffer buffer_len
  refine ⟨?_, ?_⟩
  · by_cases hlt : buffer_len < m.length
    · rw [hsmall hlt]; simp [hlt]
    · rw [hbig (by omega)]; simp [hlt]
  · intro hlt
    refine ⟨hsmall hlt, ?_⟩
    intro buffer2 n hn
    rw [hsmall hlt]
    simp only []
    rw [(read_status s m q hinv buffer2 n).2 hn]
    exact ⟨rfl, rfl, inv_out s m q hinv buffer2⟩

/-- Witness of C5: a 2-byte buffer offered for a 3-byte frame, then an 8-byte
buffer. -/
theorem output_too_small_exact_witness :
    Reachable one_frame_state [[1, 2, 3]] ∧
    (ringbuffer_read one_frame_state uninit 2).status = Status.OUTPUT_BUFFER_TOO_SMALL ∧
    mem_read (ringbuffer_read (ringbuffer_read one_frame_state uninit 2).context uninit 8).buffer
      0 3 = [1, 2, 3] :=
  have h := output_too_small_exact one_frame_state [1, 2, 3] [] one_frame_state_reachable uninit 2
  ⟨one_frame_state_reachable, h.1.2 (by decide), ((h.2 (by decide)).2 uninit 8 (by decide)).2.2⟩

/-- C6: the arena that `ringbuffer_init` leaves on any storage of any size
reports `RINGBUFFER_EMPTY` on `ringbuffer_read`; in a state reachable from
`ringbuffer_init` with `1 ≤ C < 2 ^ 64`, `ringbuffer_read` returns
`RINGBUFFER_EMPTY` if and only if no frame is written and not yet read, which
is the case if and only if `read == write`; when it returns `RINGBUFFER_EMPTY`,
the context, the buffer and `*buffer_len` are unchanged. -/
theorem empty_exact (context0 : rbctx_t) (buffer_location buffer_size : Nat)
    (s : rbctx_t) (q : List (List Byte)) (buffer : Mem) (buffer_len : Nat)
    (hloc : buffer_location ≠ 0) (h : Reachable s q) :
    ringbuffer_read (ringbuffer_init context0 buffer_location buffer_size) buffer buffer_len
      = ⟨Status.RINGBUFFER_EMPTY, ringbuffer_init context0 buffer_location buffer_size,
          buffer, buffer_len⟩ ∧
    ((ringbuffer_read s buffer buffer_len).status = Status.RINGBUFFER_EMPTY ↔ q = []) ∧
    (q = [] ↔ s.read = s.write) ∧
    ((ringbuffer_read s buffer buffer_len).status = Status.RINGBUFFER_EMPTY →
      ringbuffer_read s buffer buffer_len = ⟨Status.RINGBUFFER_EMPTY, s, buffer, buffer_len⟩) := by
  obtain ⟨hinv, -⟩ := reachable_sim s _ h
  have hiff := inv_empty_iff s q hinv
  have key : (ringbuffer_read s buffer buffer_len).status = Status.RINGBUFFER_EMPTY ↔ q = [] := by
    cases q with
    | nil => rw [read_empty s _ _ (hiff.2 rfl)]; simp
    | cons m q =>
      obtain ⟨hsmall, hbig⟩ := read_status s m q hinv buffer buffer_len
      by_cases hlt : buffer_len < m.length
      · rw [hsmall hlt]; simp
      · rw [hbig (by omega)]; simp
  refine ⟨?_, key, hiff.symm, ?_⟩
  · apply read_empty
    simp [ringbuffer_init, hloc]
  · intro he
    exact read_empty s _ _ (hiff.2 (key.1 he))

/-- Witness of C6: a fresh 24-byte arena, and the arena after a write and the
read of its frame. -/
theorem empty_exact_witness :
    (ringbuffer_read (ringbuffer_init blank_context 4096 24) uninit 8).status = Status.RINGBUFFER_EMPTY ∧
    Reachable drained_state [] ∧
    (ringbuffer_read drained_state uninit 8).status = Status.RINGBUFFER_EMPTY :=
  have h := empty_exact blank_context 4096 24 drained_state [] uninit 8 (by decide) drained_state_reachable
  ⟨by rw [h.1], drained_state_reachable, h.2.1.2 rfl⟩

/-- C7, the claim fails: after an 8-byte payload is written to a fresh 17-byte
arena the occupied span is `C - 1 = 16` bytes, and the write of a zero-length
payload returns `RINGBUFFER_FULL`, not `SUCCESS`. -/
theorem zero_length_on_full_arena_counterexample :
    Reachable full_state [[1, 2, 3, 4, 5, 6, 7, 8]] ∧
    occupied full_state = capacity full_state - 1 ∧
    (ringbuffer_write full_state (ptr []) 0).status = Status.RINGBUFFER_FULL ∧
    (ringbuffer_write full_state (ptr []) 0).status ≠ Status.SUCCESS :=
  ⟨⟨blank_context, 4096, 17, [Call.write [1, 2, 3, 4, 5, 6, 7, 8]], by decide, by decide, by decide,
    by decide, rfl, by decide⟩, by decide, by decide, by decide⟩

/-- C7 as amended: in a reachable state whose occupied span is exactly `C - 1`
bytes, `ringbuffer_write` returns `RINGBUFFER_FULL` for every payload whose
length plus `sizeof(size_t)` is representable in `size_t`, the zero-length
payload included; in a reachable state with at least `sizeof(size_t)` free
bytes the write of a zero-length payload returns `SUCCESS` and queues a frame
of length 0, which the next read of an otherwise empty arena returns with
`*buffer_len = 0`. -/
theorem full_arena_rejects_every_write (s : rbctx_t) (q : List (List Byte))
    (h : Reachable s q) :
    (occupied s = capacity s - 1 →
      ∀ (message : Mem) (message_len : Nat), message_len + sizeof_size_t < SIZE_T_MOD →
        (ringbuffer_write s message message_len).status = Status.RINGBUFFER_FULL) ∧
    (sizeof_size_t ≤ capacity s - 1 - occupied s →
      (ringbuffer_write s (ptr []) 0).status = Status.SUCCESS ∧
      Reachable (ringbuffer_write s (ptr []) 0).context (q ++ [[]]) ∧
      (q = [] → ∀ (buffer : Mem) (buffer_len : Nat),
        (ringbuffer_read (ringbuffer_write s (ptr []) 0).context buffer buffer_len).status
          = Status.SUCCESS ∧
        (ringbuffer_read (ringbuffer_write s (ptr []) 0).context buffer buffer_len).buffer_len
          = 0)) := by
  obtain ⟨hinv, hC⟩ := reachable_sim s q h
  have hocc := inv_occupied s q hinv
  have hfree := inv_free s q hinv
  have h8 : sizeof_size_t = 8 := rfl
  have hz : (0 : Nat) + sizeof_size_t < SIZE_T_MOD := by decide
  refine ⟨?_, ?_⟩
  · intro hfull message message_len hlen
    rw [(write_status s q hinv message message_len hlen).1]
    omega
  · intro hroom
    have hok : (ringbuffer_write s (ptr []) 0).status = Status.SUCCESS := by
      rw [(write_status s q hinv (ptr []) 0 hz).2]
      omega
    have hr := reachable_write s q h [] hz hok
    refine ⟨hok, hr, ?_⟩
    intro hq buffer buffer_len
    subst hq
    obtain ⟨hinv2, -⟩ := reachable_sim _ _ hr
    have := (read_status _ [] [] hinv2 buffer buffer_len).2 (Nat.zero_le _)
    simp only [List.nil_append, List.length_nil] at this ⊢
    rw [this]
    exact ⟨rfl, rfl⟩

/-- Witness of C7 as amended: the full 17-byte arena rejects a 1-byte payload,
and the empty 24-byte arena takes a zero-length payload and reads it back. -/
theorem full_arena_rejects_every_write_witness :
    (occupied full_state = capacity full_state - 1 ∧
      (ringbuffer_write full_state (ptr [9]) 1).status = Status.RINGBUFFER_FULL) ∧
    (sizeof_size_t ≤ capacity drained_state - 1 - occupied drained_state ∧
      (ringbuffer_read (ringbuffer_write drained_state (ptr []) 0).context uninit 0).status
        = Status.SUCCESS) :=
  ⟨⟨by decide,
    (full_arena_rejects_every_write full_state [[1, 2, 3, 4, 5, 6, 7, 8]]
      ⟨blank_context, 4096, 17, [Call.write [1, 2, 3, 4, 5, 6, 7, 8]], by decide, by decide, by decide,
        by decide, rfl, by decide⟩).1 (by decide) (ptr [9]) 1 (by decide)⟩,
   ⟨by decide,
    (((full_arena_rejects_every_write drained_state [] drained_state_reachable).2 (by decide)).2.2 rfl
      uninit 0).1⟩⟩

/-- C8: on a 64-byte arena with an 8-byte `size_t`, the write of a 10-byte
payload returns `SUCCESS`; the write of a 40-byte payload returns
`RINGBUFFER_FULL`, and again on a second attempt; the read returns the 10-byte
payload; the write of the 40-byte payload then returns `SUCCESS`, its frame
starts at offset 18 and wraps inside the payload (payload byte 37 at offset 63,
byte 38 at offset 0) and the write cursor ends at offset 2; the next read returns
those 40 bytes; the third payload of 10 bytes is written and read back
unchanged. -/
theorem end_to_end_scenario :
    scenario_write1.status = Status.SUCCESS ∧
    scenario_full1.status = Status.RINGBUFFER_FULL ∧
    scenario_full2.status = Status.RINGBUFFER_FULL ∧
    scenario_read1.status = Status.SUCCESS ∧
    scenario_read1.buffer_len = 10 ∧
    mem_read scenario_read1.buffer 0 scenario_read1.buffer_len = scenario_first ∧
    write_offset scenario_read1.context = 18 ∧
    scenario_write2.status = Status.SUCCESS ∧
    some (arena_byte scenario_write2.context 63) = scenario_second[37]? ∧
    some (arena_byte scenario_write2.context 0) = scenario_second[38]? ∧
    write_offset scenario_write2.context = 2 ∧
    scenario_read2.status = Status.SUCCESS ∧
    scenario_read2.buffer_len = 40 ∧
    mem_read scenario_read2.buffer 0 scenario_read2.buffer_len = scenario_second ∧
    scenario_write3.status = Status.SUCCESS ∧
    scenario_read3.status = Status.SUCCESS ∧
    scenario_read3.buffer_len = 10 ∧
    mem_read scenario_read3.buffer 0 scenario_read3.buffer_len = scenario_third ∧
    scenario_read3.context.read = scenario_read3.context.write := by
  decide

/-- C9: in a reachable state with write offset `w`, after a write of a payload `m`
(of a length whose sum with `sizeof(size_t)` is representable in `size_t`) that
returns `SUCCESS`, the arena byte at offset `(w + i) mod C` is the `i`-th
little-endian byte of `len(m)` for `i < sizeof(size_t)`, the byte at offset
`(w + sizeof(size_t) + j) mod C` is `m[j]` for `j < len(m)`, and every other byte
of memory is unchanged; the memory and the write offset are those that
`write_circular` yields when it is applied to the prefix and then to the
payload. -/
theorem wire_format (s : rbctx_t) (q : List (List Byte)) (h : Reachable s q) (m : List Byte)
    (hlen : m.length + sizeof_size_t < SIZE_T_MOD)
    (hok : (ringbuffer_write s (ptr m) m.length).status = Status.SUCCESS) :
    (∀ i, i < sizeof_size_t →
      (arena_byte (ringbuffer_write s (ptr m) m.length).context
        ((write_offset s + i) % capacity s)).val = m.length / 256 ^ i % 256) ∧
    (∀ j, j < m.length →
      some (arena_byte (ringbuffer_write s (ptr m) m.length).context
        ((write_offset s + sizeof_size_t + j) % capacity s)) = m[j]?) ∧
    (∀ a, (∀ k, k < sizeof_size_t + m.length → a ≠ s.begin + (write_offset s + k) % capacity s) →
      (ringbuffer_write s (ptr m) m.length).context.mem a = s.mem a) ∧
    (ringbuffer_write s (ptr m) m.length).context.mem
      = (write_circular
          (write_circular s.mem s.begin (capacity s) (write_offset s)
            (mem_read (size_t_bytes m.length) 0 sizeof_size_t)).1
          s.begin (capacity s)
          (write_circular s.mem s.begin (capacity s) (write_offset s)
            (mem_read (size_t_bytes m.length) 0 sizeof_size_t)).2 m).1 ∧
    write_offset (ringbuffer_write s (ptr m) m.length).context
      = (write_circular
          (write_circular s.mem s.begin (capacity s) (write_offset s)
            (mem_read (size_t_bytes m.length) 0 sizeof_size_t)).1
          s.begin (capacity s)
          (write_circular s.mem s.begin (capacity s) (write_offset s)
            (mem_read (size_t_bytes m.length) 0 sizeof_size_t)).2 m).2 := by
  obtain ⟨hinv, hC⟩ := reachable_sim s q h
  have hc := inv_cursors s q hinv
  have hfit := (write_status s q hinv (ptr m) m.length hlen).2.1 hok
  have hlt := free_bytes_lt s hc
  have h8 : sizeof_size_t = 8 := rfl
  have hmod : ∀ k, k < sizeof_size_t + m.length →
      s.begin + (write_offset s + k) % capacity s = circ s s.write k := by
    intro k hk
    rw [circ_eq_mod s s.write k hc.write_ge hc.write_lt (by omega)]
    rfl
  obtain ⟨w1, w2⟩ := frame_mem_eq_write_circular s hc m hfit
  rw [write_ok s _ _ hc hlen hfit]
  simp only [arena_byte, write_offset]
  refine ⟨?_, ?_, ?_, w1, ?_⟩
  · intro i hi
    have := hmod i (by omega)
    simp only [write_offset] at this
    rw [this, frame_mem_at s hc _ _ i hfit (by omega), if_pos hi, size_t_bytes_val]
  · intro j hj
    have := hmod (sizeof_size_t + j) (by omega)
    simp only [write_offset, ← Nat.add_assoc] at this
    rw [this, frame_mem_at s hc _ _ _ hfit (by omega), if_neg (by omega),
      Nat.add_sub_cancel_left, List.getElem?_eq_getElem hj]
    simp only [ptr, List.getD_eq_getElem _ _ hj]
  · intro a ha
    apply frame_mem_other s hc _ _ a hfit
    intro k hk
    rw [← hmod k hk]
    exact ha k hk
  · rw [w2, Nat.add_sub_cancel_left]
    rfl

/-- Witness of C9: a 3-byte payload written at offset 14 of a 24-byte arena;
the prefix ends at offset 21 and the payload wraps to offset 0. -/
theorem wire_format_witness :
    Reachable offset14_state [] ∧
    (ringbuffer_write offset14_state (ptr [7, 8, 9]) 3).status = Status.SUCCESS ∧
    write_offset offset14_state = 14 ∧
    some (arena_byte (ringbuffer_write offset14_state (ptr [7, 8, 9]) 3).context
      ((write_offset offset14_state + sizeof_size_t + 2) % capacity offset14_state))
      = ([7, 8, 9] : List Byte)[2]? :=
  ⟨offset14_state_reachable, by decide, by decide,
    (wire_format offset14_state [] offset14_state_reachable [7, 8, 9] (by decide) (by decide)).2.1 2
      (by decide)⟩

/-- C10: in a reachable state, a write of `message_len` payload bytes that returns
`SUCCESS` sets the write offset to `(w + total_len) mod C`, where `total_len` is
the `size_t` sum `message_len + sizeof(size_t)`, that is to
`(w + sizeof(size_t) + message_len) mod C` when the sum is representable in
`size_t`, and leaves `read`, `begin` and `end` unchanged; a read that returns
`SUCCESS` with a frame of length `len` sets the read offset to
`(r + sizeof(size_t) + len) mod C` and leaves `write`, `begin`, `end` and every
byte of memory unchanged. -/
theorem cursor_advance (s : rbctx_t) (q : List (List Byte)) (h : Reachable s q) :
    (∀ (message : Mem) (message_len : Nat),
      (ringbuffer_write s message message_len).status = Status.SUCCESS →
      write_offset (ringbuffer_write s message message_len).context
        = (write_offset s + size_t_add message_len sizeof_size_t) % capacity s ∧
      (message_len + sizeof_size_t < SIZE_T_MOD →
        write_offset (ringbuffer_write s message message_len).context
          = (write_offset s + sizeof_size_t + message_len) % capacity s) ∧
      (ringbuffer_write s message message_len).context.read = s.read ∧
      (ringbuffer_write s message message_len).context.begin = s.begin ∧
      (ringbuffer_write s message message_len).context.end_ = s.end_) ∧
    (∀ (buffer : Mem) (buffer_len : Nat),
      (ringbuffer_read s buffer buffer_len).status = Status.SUCCESS →
      read_offset (ringbuffer_read s buffer buffer_len).context
        = (read_offset s + sizeof_size_t + (ringbuffer_read s buffer buffer_len).buffer_len)
            % capacity s ∧
      (ringbuffer_read s buffer buffer_len).context.write = s.write ∧
      (ringbuffer_read s buffer buffer_len).context.mem = s.mem ∧
      (ringbuffer_read s buffer buffer_len).context.begin = s.begin ∧
      (ringbuffer_read s buffer buffer_len).context.end_ = s.end_) := by
  obtain ⟨hinv, hC⟩ := reachable_sim s q h
  have hc := inv_cursors s q hinv
  have hlt := free_bytes_lt s hc
  have h8 : sizeof_size_t = 8 := rfl
  refine ⟨?_, ?_⟩
  · intro message message_len hok
    obtain ⟨-, g2, g3⟩ := write_cursor s message message_len hc
    obtain ⟨k1, k2, k3, k4⟩ := g3 hok
    have hfit := g2.1 hok
    have e : write_offset (ringbuffer_write s message message_len).context
        = (write_offset s + size_t_add message_len sizeof_size_t) % capacity s := by
      simp only [write_offset]
      rw [k1, k3, circ_eq_mod s s.write _ hc.write_ge hc.write_lt (by omega),
        Nat.add_sub_cancel_left]
    refine ⟨e, ?_, k2, k3, k4⟩
    intro hlen
    rw [e, size_t_add_eq _ _ hlen, Nat.add_assoc, Nat.add_comm sizeof_size_t]
  · intro buffer buffer_len hok
    cases q with
    | nil =>
      rw [read_empty s _ _ ((inv_empty_iff s [] hinv).2 rfl)] at hok
      simp at hok
    | cons m q =>
      obtain ⟨hsmall, hbig⟩ := read_status s m q hinv buffer buffer_len
      by_cases hs : buffer_len < m.length
      · rw [hsmall hs] at hok
        simp at hok
      · obtain ⟨g1, -, -⟩ := inv_head s m q hinv
        rw [hbig (by omega)]
        refine ⟨?_, rfl, rfl, rfl, rfl⟩
        simp only [read_offset]
        rw [circ_eq_mod s s.read _ hinv.read_ge hinv.read_lt (by omega),
          Nat.add_sub_cancel_left, Nat.add_assoc]

/-- Witness of C10: the write of a 3-byte payload at offset 14 of a 24-byte
arena moves the write offset to `(14 + 8 + 3) mod 24 = 1`. -/
theorem cursor_advance_witness :
    Reachable offset14_state [] ∧
    write_offset (ringbuffer_write offset14_state (ptr [7, 8, 9]) 3).context
      = (write_offset offset14_state + sizeof_size_t + 3) % capacity offset14_state ∧
    write_offset (ringbuffer_write offset14_state (ptr [7, 8, 9]) 3).context = 1 :=
  ⟨offset14_state_reachable,
    ((cursor_advance offset14_state [] offset14_state_reachable).1 (ptr [7, 8, 9]) 3
      (by decide)).2.1 (by decide), by decide⟩

/-- C11: in every state reachable from `ringbuffer_init` on a storage of
`1 ≤ C < 2 ^ 64` bytes (the state after `ringbuffer_init` and after every
following call), the read cursor and the write cursor lie in `[begin, end)`;
so the sentinel case `read == end` with `write == begin` that
`ringbuffer_read` tests does not hold and its renormalisation `read = begin`
leaves `read` as it is; and one more `ringbuffer_write`, of any `message_len`,
or one more `ringbuffer_read`, whatever they return, leave both cursors in
`[begin, end)`. -/
theorem cursor_range (s : rbctx_t) (q : List (List Byte)) (h : Reachable s q) :
    (s.begin ≤ s.read ∧ s.read < s.end_ ∧ s.begin ≤ s.write ∧ s.write < s.end_) ∧
    ¬ (s.read = s.end_ ∧ s.write = s.begin) ∧
    (if s.read = s.end_ then s.begin else s.read) = s.read ∧
    (∀ (message : Mem) (message_len : Nat),
      (ringbuffer_write s message message_len).context.begin
        ≤ (ringbuffer_write s message message_len).context.read ∧
      (ringbuffer_write s message message_len).context.read
        < (ringbuffer_write s message message_len).context.end_ ∧
      (ringbuffer_write s message message_len).context.begin
        ≤ (ringbuffer_write s message message_len).context.write ∧
      (ringbuffer_write s message message_len).context.write
        < (ringbuffer_write s message message_len).context.end_) ∧
    (∀ (buffer : Mem) (buffer_len : Nat),
      (ringbuffer_read s buffer buffer_len).context.begin
        ≤ (ringbuffer_read s buffer buffer_len).context.read ∧
      (ringbuffer_read s buffer buffer_len).context.read
        < (ringbuffer_read s buffer buffer_len).context.end_ ∧
      (ringbuffer_read s buffer buffer_len).context.begin
        ≤ (ringbuffer_read s buffer buffer_len).context.write ∧
      (ringbuffer_read s buffer buffer_len).context.write
        < (ringbuffer_read s buffer buffer_len).context.end_) := by
  obtain ⟨hinv, -⟩ := reachable_sim s q h
  have hc := inv_cursors s q hinv
  have hne : s.read ≠ s.end_ := Nat.ne_of_lt hc.read_lt
  refine ⟨⟨hc.read_ge, hc.read_lt, hc.write_ge, hc.write_lt⟩, fun e => hne e.1, if_neg hne,
    ?_, ?_⟩
  · intro message message_len
    have := write_cursors s hc message message_len
    exact ⟨this.read_ge, this.read_lt, this.write_ge, this.write_lt⟩
  · intro buffer buffer_len
    have := read_cursors s q hinv buffer buffer_len
    exact ⟨this.read_ge, this.read_lt, this.write_ge, this.write_lt⟩

/-- Witness of C11: the 24-byte arena after a 6-byte payload is written and
read has both cursors at offset 14. -/
theorem cursor_range_witness :
    Reachable offset14_state [] ∧
    (offset14_state.begin ≤ offset14_state.read ∧ offset14_state.read < offset14_state.end_ ∧
      offset14_state.begin ≤ offset14_state.write ∧
      offset14_state.write < offset14_state.end_) ∧
    read_offset offset14_state = 14 :=
  ⟨offset14_state_reachable, (cursor_range offset14_state [] offset14_state_reachable).1,
    by decide⟩

/-- C12, the claim fails: when `malloc` returns `NULL`, `simpledaemon` returns -1
without creating a thread although the one descriptor, origin 1 and
destination 2, lies inside the range `[0, 255]`. -/
theorem identifier_validation_counterexample :
    simpledaemon 0 255 4 0 [sample_connection] = ⟨-1, 0, 0⟩ ∧
    ¬ ∃ c ∈ [sample_connection], c.from_ < 0 ∨ c.from_ > 255 ∨ c.to_ < 0 ∨ c.to_ > 255 := by
  decide

/-- C12 as amended: `simpledaemon` returns -1 without creating any writer or
reader thread if and only if the allocation of the arena fails or some
descriptor has `from` or `to` outside `[MINIMUM_PORT, MAXIMUM_PORT]`; a list with
a descriptor of destination 10000 is rejected against the range `[0, 255]`
before any thread is created. -/
theorem identifier_validation (MINIMUM_PORT MAXIMUM_PORT : Int)
    (NUMBER_OF_PROCESSING_THREADS rbuf : Nat) (connections : List connection_t) :
    (((simpledaemon MINIMUM_PORT MAXIMUM_PORT NUMBER_OF_PROCESSING_THREADS rbuf
          connections).ret = -1 ∧
        (simpledaemon MINIMUM_PORT MAXIMUM_PORT NUMBER_OF_PROCESSING_THREADS rbuf
          connections).writer_threads = 0 ∧
        (simpledaemon MINIMUM_PORT MAXIMUM_PORT NUMBER_OF_PROCESSING_THREADS rbuf
          connections).reader_threads = 0) ↔
      (rbuf = 0 ∨ ∃ c ∈ connections, c.from_ < MINIMUM_PORT ∨ c.from_ > MAXIMUM_PORT ∨
        c.to_ < MINIMUM_PORT ∨ c.to_ > MAXIMUM_PORT)) ∧
    ((∃ c ∈ connections, c.to_ = 10000) →
      simpledaemon 0 255 NUMBER_OF_PROCESSING_THREADS rbuf connections = ⟨-1, 0, 0⟩) := by
  refine ⟨?_, ?_⟩
  · unfold simpledaemon
    by_cases h0 : rbuf = 0
    · simp [h0]
    · rw [if_neg h0]
      by_cases hv : ports_valid MINIMUM_PORT MAXIMUM_PORT connections = false
      · rw [if_pos hv]
        simp only [and_self, true_iff]
        exact Or.inr ((ports_valid_false_iff _ _ _).1 hv)
      · rw [if_neg hv]
        simp only [Int.reduceNeg, false_and, false_iff, not_or]
        constructor
        · intro h; simp at h
        · rintro (h | h)
          · exact absurd h h0
          · exact absurd ((ports_valid_false_iff _ _ _).2 h) hv
  · rintro ⟨c, hc, h⟩
    unfold simpledaemon
    by_cases h0 : rbuf = 0
    · rw [if_pos h0]
    · rw [if_neg h0, if_pos]
      exact (ports_valid_false_iff _ _ _).2 ⟨c, hc, Or.inr (Or.inr (Or.inr (by rw [h]; decide)))⟩

/-- Witness of C12 as amended: a descriptor with destination 10000 is rejected
against `[0, 255]` when the allocation succeeded. -/
theorem identifier_validation_witness :
    (∃ c ∈ [sample_connection, far_connection], c.to_ = 10000) ∧
    simpledaemon 0 255 4 4096 [sample_connection, far_connection] = ⟨-1, 0, 0⟩ :=
  ⟨by decide,
    (identifier_validation 0 255 4 4096 [sample_connection, far_connection]).2 (by decide)⟩

/-- C14, the code departs from the claim: a pass of the loop of `process_packets`
that drops a frame leaves through `continue` and never reaches
`pthread_testcancel`. On the 1024-byte arena holding one frame with origin 7 and
destination 7, and on one holding a frame from 1 to 2 whose text is
`Malicious`, the calls of the pass are `ringbuffer_read` and `printf` only; a
pass that accepts a frame and a pass on the empty arena do end with
`pthread_testcancel`. -/
theorem dropped_frame_skips_testcancel :
    Reachable (arena_holding (tagged 7 7 0 [104, 105])) [tagged 7 7 0 [104, 105]] ∧
    (process_packets_pass 40 (arena_holding (tagged 7 7 0 [104, 105])) scratch true).events
      = [Event.ringbuffer_read, Event.printf] ∧
    (process_packets_pass 40
        (arena_holding (tagged 1 2 0 [77, 97, 108, 105, 99, 105, 111, 117, 115]))
        scratch true).events
      = [Event.ringbuffer_read, Event.printf] ∧
    (process_packets_pass 40 (arena_holding (tagged 1 2 0 [104, 105])) scratch true).events
      = [Event.ringbuffer_read, Event.printf, Event.mutex_lock, Event.fopen "2.txt",
          Event.fwrite [104, 105], Event.fclose, Event.mutex_unlock, Event.testcancel] ∧
    (process_packets_pass 40 (start blank_context 4096 1024).context scratch true).events
      = [Event.ringbuffer_read, Event.usleep, Event.testcancel] := by
  refine ⟨arena_holding_reachable _ (by decide), ?_, ?_, ?_, ?_⟩ <;> decide

/-- C15: for every origin, destination and sequence id (each a `size_t`) and every
chunk, empty or not, of at most `MESSAGE_SIZE - 3 * sizeof(size_t)` bytes, the payload
that `write_packets` builds has length `chunk length + 3 * sizeof(size_t)` and is
the three values, each as a native `size_t`, followed by the raw bytes; the
decoding of `process_packets`, on the producer's buffer and on every buffer that
holds this payload, recovers origin, destination and sequence id and finds the
chunk at offset `3 * sizeof(size_t)`; and the frame of index `k` that
`write_packets` offers for a source carries the sequence id `k`, the identifiers
of the descriptor and the `k`-th chunk of the source, which is not empty, the
chunks covering the whole source. -/
theorem sub_framing_round_trip (MESSAGE_SIZE from_ to_ packet_id : Nat) (chunk : List Byte)
    (buf : Mem) (h24 : 3 * sizeof_size_t < MESSAGE_SIZE) (hM : MESSAGE_SIZE < SIZE_T_MOD)
    (hf : from_ < SIZE_T_MOD) (ht : to_ < SIZE_T_MOD) (hp : packet_id < SIZE_T_MOD)
    (hfit : chunk.length ≤ MESSAGE_SIZE - 3 * sizeof_size_t) :
    (write_packets_frame buf from_ to_ packet_id chunk).2 = chunk.length + 3 * sizeof_size_t ∧
    mem_read (write_packets_frame buf from_ to_ packet_id chunk).1 0
        (write_packets_frame buf from_ to_ packet_id chunk).2
      = mem_read (size_t_bytes from_) 0 sizeof_size_t
        ++ mem_read (size_t_bytes to_) 0 sizeof_size_t
        ++ mem_read (size_t_bytes packet_id) 0 sizeof_size_t ++ chunk ∧
    (∀ buffer : Mem,
      mem_read buffer 0 (write_packets_frame buf from_ to_ packet_id chunk).2
        = mem_read (write_packets_frame buf from_ to_ packet_id chunk).1 0
            (write_packets_frame buf from_ to_ packet_id chunk).2 →
      decoded_from buffer = from_ ∧ decoded_to buffer = to_ ∧
      decoded_packet_id buffer = packet_id ∧
      mem_read buffer (3 * sizeof_size_t) chunk.length = chunk) ∧
    (∀ (connection : connection_t) (file : List Byte), file.length < SIZE_T_MOD →
      file.length ≤ (write_packets MESSAGE_SIZE connection file).length
        * (MESSAGE_SIZE - 3 * sizeof_size_t) ∧
      ∀ (k : Nat) (fr : Mem × Nat),
        (write_packets MESSAGE_SIZE connection file)[k]? = some fr →
        decoded_packet_id fr.1 = k ∧
        decoded_from fr.1 = to_size_t connection.from_ ∧
        decoded_to fr.1 = to_size_t connection.to_ ∧
        3 * sizeof_size_t < fr.2 ∧
        fr.2 = ((file.drop (k * (MESSAGE_SIZE - 3 * sizeof_size_t))).take
            (MESSAGE_SIZE - 3 * sizeof_size_t)).length + 3 * sizeof_size_t ∧
        mem_read fr.1 (3 * sizeof_size_t) (fr.2 - 3 * sizeof_size_t)
          = (file.drop (k * (MESSAGE_SIZE - 3 * sizeof_size_t))).take
              (MESSAGE_SIZE - 3 * sizeof_size_t)) := by
  have h8 : sizeof_size_t = 8 := rfl
  obtain ⟨hlen, hbytes⟩ := write_packets_frame_spec buf from_ to_ packet_id chunk (by omega)
  refine ⟨hlen, ?_, ?_, ?_⟩
  · rw [hlen, hbytes]; rfl
  · intro buffer hb
    rw [hlen, hbytes] at hb
    exact decode_tagged buffer from_ to_ packet_id chunk hf ht hp hb
  · intro connection file hfile
    obtain ⟨hcover, hframes⟩ := write_packets_loop_spec MESSAGE_SIZE
      (to_size_t connection.from_) (to_size_t connection.to_) h24 hM (file.length + 1) file 0
      uninit (by omega) (by omega)
    refine ⟨hcover, ?_⟩
    intro k fr hk
    obtain ⟨hck, hl, hm⟩ := hframes k fr hk
    generalize hc : (file.drop (k * (MESSAGE_SIZE - 3 * sizeof_size_t))).take
      (MESSAGE_SIZE - 3 * sizeof_size_t) = c at hck hl hm
    have hkn : k * (MESSAGE_SIZE - 3 * sizeof_size_t) < file.length := by
      by_contra hcon
      apply hck
      rw [← hc, List.drop_eq_nil_of_le (by omega)]
      exact List.take_nil
    have hk1 : k ≤ k * (MESSAGE_SIZE - 3 * sizeof_size_t) :=
      Nat.le_mul_of_pos_right k (by omega)
    rw [hl, Nat.zero_add] at hm
    have hmod1 : to_size_t connection.from_ < SIZE_T_MOD := by
      exact to_size_t_lt _
    have hmod2 : to_size_t connection.to_ < SIZE_T_MOD := by
      exact to_size_t_lt _
    obtain ⟨d1, d2, d3, d4⟩ := decode_tagged fr.1 _ _ k c hmod1 hmod2 (by omega) hm
    have hcpos : 0 < c.length := List.length_pos.2 hck
    refine ⟨d3, d1, d2, by omega, hl, ?_⟩
    rw [hl, Nat.add_sub_cancel]
    exact d4

/-- Witness of C15: with `MESSAGE_SIZE = 40` the frame for origin 1, destination 2,
sequence id 0 and a chunk of 16 bytes, and the second frame of a 20-byte
source. -/
theorem sub_framing_round_trip_witness :
    (3 * sizeof_size_t < 40 ∧ 40 < SIZE_T_MOD ∧ 1 < SIZE_T_MOD ∧ 2 < SIZE_T_MOD ∧
      0 < SIZE_T_MOD ∧
      (sample_source.take 16).length ≤ 40 - 3 * sizeof_size_t) ∧
    (write_packets_frame uninit 1 2 0 (sample_source.take 16)).2 = 40 ∧
    (∃ fr, (write_packets 40 sample_connection sample_source)[1]? = some fr ∧
      decoded_packet_id fr.1 = 1 ∧ fr.2 = 28) :=
  ⟨by decide,
    (sub_framing_round_trip 40 1 2 0 (sample_source.take 16) uninit (by decide) (by decide)
      (by decide) (by decide) (by decide) (by decide)).1,
    ⟨_, rfl,
      (((sub_framing_round_trip 40 1 2 0 (sample_source.take 16) uninit (by decide) (by decide)
        (by decide) (by decide) (by decide) (by decide)).2.2.2 sample_connection
        sample_source (by decide)).2 1 _ rfl).1,
      by decide⟩⟩

/-- C16, the code at the failing input: on the fresh 24-byte arena (23 bytes
free) a write with `message_len = 2 ^ 64 - 8` forms the `size_t` sum 0, passes
the size check and returns `SUCCESS`, although `message_len + sizeof(size_t)`
is `2 ^ 64`; the copy of the payload then overwrites the byte at offset 24,
which lies outside the storage. -/
theorem size_check_wraps :
    Reachable fresh_state [] ∧
    capacity fresh_state - 1 - occupied fresh_state = 23 ∧
    size_t_add 18446744073709551608 sizeof_size_t = 0 ∧
    (ringbuffer_write fresh_state sevens 18446744073709551608).status = Status.SUCCESS ∧
    ¬ (18446744073709551608 + sizeof_size_t ≤ capacity fresh_state - 1 - occupied fresh_state) ∧
    arena_byte fresh_state 24 = 0 ∧
    arena_byte (ringbuffer_write fresh_state sevens 18446744073709551608).context 24 = 7 :=
  ⟨fresh_state_reachable, by decide, by decide, by decide, by decide, by decide, by decide⟩

/-- C17, the code at the failing input: after `ringbuffer_init` with
`buffer_size = 0` the free space that `ringbuffer_write` computes is
`2 ^ 64 - 1`, the write of a 1-byte payload returns `SUCCESS`, and it stores the
length prefix and the payload at offsets 0 to 8, outside the empty storage. -/
theorem zero_capacity_write_succeeds :
    capacity zero_capacity_state = 0 ∧
    write_space_free zero_capacity_state = 18446744073709551615 ∧
    (ringbuffer_write zero_capacity_state (ptr [65]) 1).status = Status.SUCCESS ∧
    (ringbuffer_write zero_capacity_state (ptr [65]) 1).status ≠ Status.RINGBUFFER_FULL ∧
    arena_byte zero_capacity_state 0 = 0 ∧
    arena_byte (ringbuffer_write zero_capacity_state (ptr [65]) 1).context 0 = 1 ∧
    arena_byte (ringbuffer_write zero_capacity_state (ptr [65]) 1).context 8 = 65 ∧
    write_offset (ringbuffer_write zero_capacity_state (ptr [65]) 1).context = 9 := by
  decide

/-- C18, the code departs from the claim: for a frame of `MESSAGE_SIZE` bytes the
terminating NUL is stored at index `MESSAGE_SIZE`, one past the scratch buffer.
With `MESSAGE_SIZE = 40` the first frame that `write_packets` offers for a source
of 20 bytes has 40 bytes; `ringbuffer_read` delivers it with `len = 40`, the
index of the terminator is 40, which is not less than 40, and the byte at
index 40, which was 255, is 0 after the pass. -/
theorem terminator_outside_scratch :
    (write_packets 40 sample_connection sample_source).map
        (fun fr => mem_read fr.1 0 fr.2)
      = [tagged 1 2 0 (sample_source.take 16), tagged 1 2 1 (sample_source.drop 16)] ∧
    (tagged 1 2 0 (sample_source.take 16)).length = 40 ∧
    Reachable (arena_holding (tagged 1 2 0 (sample_source.take 16)))
      [tagged 1 2 0 (sample_source.take 16)] ∧
    (ringbuffer_read (arena_holding (tagged 1 2 0 (sample_source.take 16))) scratch 40).status
      = Status.SUCCESS ∧
    (ringbuffer_read (arena_holding (tagged 1 2 0 (sample_source.take 16))) scratch
      40).buffer_len = 40 ∧
    terminator_index 40 = 40 ∧ ¬ terminator_index 40 < 40 ∧
    scratch 40 = 255 ∧
    (process_packets_pass 40 (arena_holding (tagged 1 2 0 (sample_source.take 16))) scratch
      true).buffer 40 = 0 := by
  refine ⟨by decide, by decide, arena_holding_reachable _ (by decide), ?_, ?_, ?_, ?_, ?_, ?_⟩
    <;> decide

/-- C20, the claim fails: when `fopen` returns `NULL` for an accepted frame, here
the frame from 1 to 2 with the text `hi`, the pass locks the file mutex, calls
`fopen` on `2.txt` and unlocks; no `fwrite` is made, so nothing is appended
although the chunk is not empty. -/
theorem persisted_bytes_counterexample :
    Reachable (arena_holding (tagged 1 2 0 [104, 105])) [tagged 1 2 0 [104, 105]] ∧
    (process_packets_pass 40 (arena_holding (tagged 1 2 0 [104, 105])) scratch false).events
      = [Event.ringbuffer_read, Event.printf, Event.mutex_lock, Event.fopen "2.txt",
          Event.mutex_unlock, Event.testcancel] ∧
    Event.fwrite [104, 105]
      ∉ (process_packets_pass 40 (arena_holding (tagged 1 2 0 [104, 105])) scratch
          false).events := by
  refine ⟨arena_holding_reachable _ (by decide), ?_, ?_⟩ <;> decide

/-- C20 as amended: for a frame that `write_packets` built from a non-empty chunk,
that is shorter than `MESSAGE_SIZE`, so that the terminator is stored inside the
scratch buffer, that has a destination below `10 ^ 15`, so that the file name
and its NUL fit `char filename[20]`, that is the oldest frame of a reachable
arena and that the filter of `process_packets` accepts, the pass opens the file
whose name is the decimal rendering of the destination followed by `.txt`; when
`fopen` returns a stream, the one `fwrite` of the pass appends the chunk
truncated at its first zero byte, the whole chunk when it holds no zero byte;
when `fopen` returns `NULL`, no `fwrite` is made. -/
theorem persisted_bytes (MESSAGE_SIZE : Nat) (s : rbctx_t) (q : List (List Byte))
    (buf : Mem) (from_ to_ packet_id : Nat) (chunk : List Byte) (buffer : Mem)
    (fopen_ok : Bool)
    (h : Reachable s
      (mem_read (write_packets_frame buf from_ to_ packet_id chunk).1 0
        (write_packets_frame buf from_ to_ packet_id chunk).2 :: q))
    (hne : chunk ≠ []) (hfit : chunk.length + 3 * sizeof_size_t < MESSAGE_SIZE)
    (hM : MESSAGE_SIZE < SIZE_T_MOD)
    (hf : from_ < SIZE_T_MOD) (hto : to_ < 10 ^ 15) (hp : packet_id < SIZE_T_MOD)
    (hacc : Event.mutex_lock ∈ (process_packets_pass MESSAGE_SIZE s buffer fopen_ok).events) :
    (process_packets_pass MESSAGE_SIZE s buffer fopen_ok).events
      = [Event.ringbuffer_read, Event.printf, Event.mutex_lock,
          Event.fopen (Nat.repr to_ ++ ".txt")]
        ++ (if fopen_ok then
              [Event.fwrite (chunk.takeWhile (fun b => b ≠ 0)), Event.fclose]
            else [])
        ++ [Event.mutex_unlock, Event.testcancel] ∧
    ((∀ b ∈ chunk, b ≠ 0) → chunk.takeWhile (fun b => b ≠ 0) = chunk) ∧
    terminator_index (chunk.length + 3 * sizeof_size_t) < MESSAGE_SIZE ∧
    (Nat.repr to_ ++ ".txt").length + 1 ≤ 20 := by
  have h8 : sizeof_size_t = 8 := rfl
  have ht : to_ < SIZE_T_MOD := Nat.lt_trans hto (by decide)
  have hfit1 : chunk.length + 3 * sizeof_size_t ≤ MESSAGE_SIZE := Nat.le_of_lt hfit
  obtain ⟨hlen, hbytes⟩ := write_packets_frame_spec buf from_ to_ packet_id chunk
    (by simp only [SIZE_T_MOD] at *; omega)
  rw [hlen, hbytes] at h
  have hfit2 : (tagged from_ to_ packet_id chunk).length ≤ MESSAGE_SIZE := by
    rw [tagged_length]; exact hfit1
  obtain ⟨hout, hev, -⟩ := pass_on_frame MESSAGE_SIZE s _ q h hfit2 buffer fopen_ok
  rw [tagged_length] at hout hev
  generalize (ringbuffer_read s buffer MESSAGE_SIZE).buffer = rb at hout hev
  obtain ⟨d1, d2, -, -⟩ := decode_tagged rb from_ to_ packet_id chunk hf ht hp hout
  obtain ⟨hti, htext⟩ := delivered_text MESSAGE_SIZE rb from_ to_ packet_id chunk
    (List.length_pos.2 hne) hfit1 hM hout hf ht hp
  have hname := sprintf_filename_eq to_ hto
  refine ⟨?_, ?_, by rw [hti]; exact hfit, ?_⟩
  · rw [hev] at hacc ⊢
    have hacc2 : Event.mutex_lock
        ∈ (handle_frame MESSAGE_SIZE rb (chunk.length + 3 * sizeof_size_t) fopen_ok).2 := by
      simpa using hacc
    have hno := (handle_frame_accepts MESSAGE_SIZE rb _ fopen_ok
      (by rw [d2]; exact hto)).1 hacc2
    rw [(handle_frame_events MESSAGE_SIZE rb _ fopen_ok).2, if_neg hno, htext, d2, hname]
    rfl
  · intro hall
    exact List.takeWhile_eq_self_iff.2 (by simpa using hall)
  · unfold sprintf_filename at hname
    by_contra hcon
    rw [if_neg hcon] at hname
    exact absurd hname (by simp)

/-- Witness of C20 as amended: the frame from 1 to 2 with the text `hi` on the
1024-byte arena, `fopen` returning a stream. -/
theorem persisted_bytes_witness :
    Reachable (arena_holding (mem_read (write_packets_frame uninit 1 2 0 [104, 105]).1 0
        (write_packets_frame uninit 1 2 0 [104, 105]).2))
      [mem_read (write_packets_frame uninit 1 2 0 [104, 105]).1 0
        (write_packets_frame uninit 1 2 0 [104, 105]).2] ∧
    Event.mutex_lock ∈ (process_packets_pass 40
      (arena_holding (mem_read (write_packets_frame uninit 1 2 0 [104, 105]).1 0
        (write_packets_frame uninit 1 2 0 [104, 105]).2)) scratch true).events ∧
    (process_packets_pass 40
      (arena_holding (mem_read (write_packets_frame uninit 1 2 0 [104, 105]).1 0
        (write_packets_frame uninit 1 2 0 [104, 105]).2)) scratch true).events
      = [Event.ringbuffer_read, Event.printf, Event.mutex_lock,
          Event.fopen (Nat.repr 2 ++ ".txt")]
        ++ (if true then
              [Event.fwrite (([104, 105] : List Byte).takeWhile (fun b => b ≠ 0)), Event.fclose]
            else [])
        ++ [Event.mutex_unlock, Event.testcancel] :=
  ⟨arena_holding_reachable _ (by decide), by decide,
    (persisted_bytes 40 _ [] uninit 1 2 0 [104, 105] scratch true
      (arena_holding_reachable _ (by decide)) (by decide) (by decide) (by decide) (by decide)
      (by decide) (by decide) (by decide)).1⟩

end RingBuf
